import Mathlib

/-!
A shallow embedding of the bGit version-control engine (`src/repository.rs`,
`src/differ.rs`) in Lean 4, together with theorems settling the frozen claims
about its specification.

Modelling conventions:
* Byte strings are `List Nat` (each element is one byte).
* The object store (`.bgit/objects/<2-hex>/<38-hex>`) is an association list
  from the 40-hex OID to the full stored bytes (header plus payload); the
  directory sharding is an encoding detail of the path and is dropped.
* The ref store (files under `.bgit/` such as `HEAD`, `MERGE_HEAD`,
  `refs/heads/x`) is an association list from the file path to the file text.
* The working tree is a list of named filesystem nodes (files with byte
  content, or directories holding further nodes).
* SHA-1 is treated as an opaque deterministic primitive: every definition is
  parameterised by `hashFn : List Nat → String` standing for
  `hex::encode(Sha1::digest(bytes))`.  No claim depends on properties of the
  hash beyond determinism and producing 40-hex output.
* The ignore predicate (`Repository::is_ignored`) is likewise a parameter
  `ignore : List String → Bool` on path components, as the specification
  declares ignore matching an external collaborator.
* The external `diff3 -m` invocation in `merge_blobs_three_way` is a parameter
  `diff3 : List Nat → List Nat → List Nat → List Nat` (head, base, other).
* Loops and recursions over on-disk data use explicit fuel so that every
  definition is executable by kernel reduction; entry points pick sufficient
  fuel or expose it, and theorems quantify over it.
* Rust `Result<_, String>` is `Except String _`; a Rust `panic!`/`unwrap` on an
  error value is modelled as propagating the error.
-/

namespace BGit

abbrev Bytes := List Nat

/-- `ObjectType` from `repository.rs`. -/
inductive ObjectType where
  | blob
  | tree
  | commit
deriving DecidableEq, Repr

/-- `ObjectType::as_str`. -/
def ObjectType.asStr : ObjectType → String
  | .blob => "blob"
  | .tree => "tree"
  | .commit => "commit"

/-- `RefValue` from `repository.rs`. -/
structure RefValue where
  value : String
  isSymbolic : Bool
deriving DecidableEq, Repr

/-- `Commit` from `repository.rs` (field `_oid` is called `oid` here). -/
structure CommitObj where
  oid : String
  tree : String
  parents : List String
  timestamp : String
  message : String
deriving DecidableEq, Repr

/-- A working-tree filesystem node: a file with byte content or a directory. -/
inductive FsNode where
  | file (content : Bytes)
  | dir (entries : List (String × FsNode))
deriving Repr

abbrev Worktree := List (String × FsNode)

/-- Repository state: object store, ref-file store, working tree. -/
structure Repo where
  objects : List (String × Bytes)
  refs : List (String × String)
  worktree : Worktree

/-! ### Association-list primitives (model of file lookup / write / delete) -/

/-- Look up the first binding of `k`. -/
def lookupA {β : Type} (l : List (String × β)) (k : String) : Option β :=
  match l with
  | [] => none
  | (k', v) :: rest => if k' = k then some v else lookupA rest k

/-- Overwrite the first binding of `k`, or append a new binding. -/
def setA {β : Type} (l : List (String × β)) (k : String) (v : β) :
    List (String × β) :=
  match l with
  | [] => [(k, v)]
  | (k', v') :: rest =>
      if k' = k then (k', v) :: rest else (k', v') :: setA rest k v

/-- Remove every binding of `k` (model of deleting a file). -/
def eraseA {β : Type} (l : List (String × β)) (k : String) :
    List (String × β) :=
  match l with
  | [] => []
  | (k', v') :: rest =>
      if k' = k then eraseA rest k else (k', v') :: eraseA rest k

/-! ### Stable sorting

Rust `Vec::sort` is a stable sort.  The model uses a structural insertion sort
(kernel-reducible, unlike a well-founded merge sort); stability and sortedness
determine the output uniquely, so any stable sort is an equivalent model. -/

/-- Insert `x` before the first element `y` with `le x y` (stable position for
an element arriving after the existing ones is preserved because equal
elements satisfy `le x y`). -/
def insertLe {α : Type} (le : α → α → Bool) (x : α) : List α → List α
  | [] => [x]
  | y :: ys => if le x y then x :: y :: ys else y :: insertLe le x ys

/-- Stable insertion sort (model of Rust `sort` / `sort_by`). -/
def insertionSort {α : Type} (le : α → α → Bool) : List α → List α
  | [] => []
  | x :: xs => insertLe le x (insertionSort le xs)

/-! ### Character and string helpers

Strings are manipulated through their character lists with self-contained
helpers, mirroring the Rust `str` operations used by the source (`trim`,
`starts_with`, `strip_prefix`, `split_whitespace`, `lines`).  Whitespace is
modelled over its ASCII range, which covers every character the repository
format produces. -/

def isWsChar (c : Char) : Bool :=
  c = ' ' || c = '\t' || c = '\n' || c = '\x0d' || c = '\x0b' || c = '\x0c'

def trimChars (l : List Char) : List Char :=
  ((l.dropWhile isWsChar).reverse.dropWhile isWsChar).reverse

/-- Rust `str::trim` (ASCII whitespace). -/
def strTrim (s : String) : String := ⟨trimChars s.data⟩

/-- Rust `str::starts_with`. -/
def strStartsWith (s pat : String) : Bool := pat.data.isPrefixOf s.data

/-- Rust `str::strip_prefix(...).unwrap()` after a `starts_with` check. -/
def stripPfx (s pat : String) : String := ⟨s.data.drop pat.data.length⟩

/-- One pass of `split_whitespace`: split `l` at whitespace, keeping only the
nonempty fragments.  `cur` is the fragment being accumulated (reversed). -/
def splitWsAux : List Char → List Char → List (List Char)
  | [], cur => if cur = [] then [] else [cur.reverse]
  | c :: rest, cur =>
      if isWsChar c then
        if cur = [] then splitWsAux rest []
        else cur.reverse :: splitWsAux rest []
      else splitWsAux rest (c :: cur)

/-- Rust `str::split_whitespace` (as a materialised list). -/
def splitWs (l : List Char) : List (List Char) := splitWsAux l []

/-- Split at every newline character, keeping all (possibly empty) parts. -/
def splitNl : List Char → List (List Char)
  | [] => [[]]
  | c :: rest =>
      match splitNl rest with
      | [] => [[]]
      | h :: t => if c = '\n' then [] :: h :: t else (c :: h) :: t

/-- Drop one trailing carriage return, as Rust `lines` does per line. -/
def stripCr (l : List Char) : List Char :=
  match l.getLast? with
  | some '\x0d' => l.dropLast
  | _ => l

/-- Rust `str::lines` (as a materialised list of lines). -/
def rustLines (l : List Char) : List (List Char) :=
  match l with
  | [] => []
  | _ =>
      let parts := splitNl l
      let parts := if l.getLast? = some '\n' then parts.dropLast else parts
      parts.map stripCr

/-! ### Hex and decimal encoding -/

def isHexDigitChar (c : Char) : Bool :=
  ('0' ≤ c && c ≤ '9') || ('a' ≤ c && c ≤ 'f') || ('A' ≤ c && c ≤ 'F')

def hexDigitVal (c : Char) : Option Nat :=
  if '0' ≤ c && c ≤ '9' then some (c.toNat - 48)
  else if 'a' ≤ c && c ≤ 'f' then some (c.toNat - 87)
  else if 'A' ≤ c && c ≤ 'F' then some (c.toNat - 55)
  else none

def hexDigitChar (n : Nat) : Char :=
  if n < 10 then Char.ofNat (48 + n) else Char.ofNat (87 + n)

/-- `hex::decode` on a character list (must have even length, all hex). -/
def hexDecodeChars : List Char → Option Bytes
  | [] => some []
  | [_] => none
  | c1 :: c2 :: rest => do
      let h ← hexDigitVal c1
      let lo ← hexDigitVal c2
      let tail ← hexDecodeChars rest
      pure ((16 * h + lo) :: tail)

def hexDecode (s : String) : Option Bytes := hexDecodeChars s.data

/-- `hex::encode`: two lowercase hex digits per byte. -/
def hexEncodeBytes : Bytes → List Char
  | [] => []
  | b :: rest => hexDigitChar (b / 16 % 16) :: hexDigitChar (b % 16) :: hexEncodeBytes rest

def hexEncode (b : Bytes) : String := ⟨hexEncodeBytes b⟩

/-- Decimal digits of `n`, most significant first (`fuel ≥ 1` suffices for
`n < 10^fuel`; callers pass `n + 1`). -/
def natDecAux : Nat → Nat → List Char
  | 0, _ => []
  | fuel + 1, n =>
      if n < 10 then [Char.ofNat (48 + n)]
      else natDecAux fuel (n / 10) ++ [Char.ofNat (48 + n % 10)]

/-- Decimal rendering of a natural number (Rust `{}` on `usize`). -/
def natDecChars (n : Nat) : List Char := natDecAux (n + 1) n

/-! ### UTF-8 encoding and decoding

Models Rust `String::from_utf8` / `.as_bytes()`.  The decoder rejects
continuation-byte errors, overlong encodings, surrogates and out-of-range
scalars, as Rust does. -/

def utf8EncodeChar (c : Char) : Bytes :=
  if c.toNat < 0x80 then [c.toNat]
  else if c.toNat < 0x800 then [0xC0 + c.toNat / 64, 0x80 + c.toNat % 64]
  else if c.toNat < 0x10000 then
    [0xE0 + c.toNat / 4096, 0x80 + c.toNat / 64 % 64, 0x80 + c.toNat % 64]
  else
    [0xF0 + c.toNat / 262144, 0x80 + c.toNat / 4096 % 64,
      0x80 + c.toNat / 64 % 64, 0x80 + c.toNat % 64]

def utf8Encode : List Char → Bytes
  | [] => []
  | c :: rest => utf8EncodeChar c ++ utf8Encode rest

/-- Bytes of a Lean string under UTF-8. -/
def strBytes (s : String) : Bytes := utf8Encode s.data

def isCont (b : Nat) : Bool := 0x80 ≤ b && b < 0xC0

/-- UTF-8 decoder with fuel (structural on the fuel so that it evaluates by
kernel reduction); fuel at least the byte length always suffices since every
step consumes at least one byte. -/
def utf8DecodeAux : Nat → Bytes → Option (List Char)
  | _, [] => some []
  | 0, _ :: _ => none
  | fuel + 1, b :: rest =>
      if b < 0x80 then do
        let tail ← utf8DecodeAux fuel rest
        pure (Char.ofNat b :: tail)
      else if b < 0xC2 then none
      else if b < 0xE0 then
        match rest with
        | b1 :: rest1 =>
            if isCont b1 then do
              let tail ← utf8DecodeAux fuel rest1
              pure (Char.ofNat ((b - 0xC0) * 64 + (b1 - 0x80)) :: tail)
            else none
        | _ => none
      else if b < 0xF0 then
        match rest with
        | b1 :: b2 :: rest2 =>
            if isCont b1 && isCont b2 then
              if (b - 0xE0) * 4096 + (b1 - 0x80) * 64 + (b2 - 0x80) < 0x800 ||
                  (0xD800 ≤ (b - 0xE0) * 4096 + (b1 - 0x80) * 64 + (b2 - 0x80) &&
                    (b - 0xE0) * 4096 + (b1 - 0x80) * 64 + (b2 - 0x80) < 0xE000) then
                none
              else do
                let tail ← utf8DecodeAux fuel rest2
                pure (Char.ofNat
                  ((b - 0xE0) * 4096 + (b1 - 0x80) * 64 + (b2 - 0x80)) :: tail)
            else none
        | _ => none
      else if b < 0xF5 then
        match rest with
        | b1 :: b2 :: b3 :: rest3 =>
            if isCont b1 && isCont b2 && isCont b3 then
              if (b - 0xF0) * 262144 + (b1 - 0x80) * 4096 +
                  (b2 - 0x80) * 64 + (b3 - 0x80) < 0x10000 ||
                  0x110000 ≤ (b - 0xF0) * 262144 + (b1 - 0x80) * 4096 +
                    (b2 - 0x80) * 64 + (b3 - 0x80) then
                none
              else do
                let tail ← utf8DecodeAux fuel rest3
                pure (Char.ofNat ((b - 0xF0) * 262144 + (b1 - 0x80) * 4096 +
                  (b2 - 0x80) * 64 + (b3 - 0x80)) :: tail)
            else none
        | _ => none
      else none

/-- Rust `String::from_utf8` on a byte list. -/
def utf8Decode (b : Bytes) : Option (List Char) := utf8DecodeAux b.length b

/-! ### Ref store (`get_ref_internal`, `set_ref`, `delete_ref`) -/

/-- `Repository::get_ref_internal`: read the ref file, trim, recognise the
`ref:` marker, and (when `deref`) follow the symbolic chain.  The Rust version
recurses unboundedly (a cyclic chain overflows the stack); here the chain
length is bounded by fuel.  Entry points pass `refs.length + 1`, which any
terminating chain satisfies since its names are pairwise distinct files. -/
def getRefInternal (refs : List (String × String)) :
    Nat → String → Bool → Except String (String × RefValue)
  | 0, refName, _ =>
      .error ("Failed to read " ++ refName ++ " file: chain too deep")
  | fuel + 1, refName, deref =>
      match lookupA refs refName with
      | none => .error ("Failed to read " ++ refName ++ " file")
      | some content =>
          let c := strTrim content
          let isSym := strStartsWith c "ref:"
          if isSym && deref then
            getRefInternal refs fuel (strTrim (stripPfx c "ref:")) deref
          else .ok (refName, ⟨c, isSym⟩)

/-- `Repository::get_ref`. -/
def getRef (refs : List (String × String)) (refName : String) (deref : Bool) :
    Except String RefValue :=
  (getRefInternal refs (refs.length + 1) refName deref).map (·.2)

/-- `Repository::set_ref` (the `fs::write` itself is assumed to succeed). -/
def setRef (refs : List (String × String)) (refName : String) (rv : RefValue)
    (deref : Bool) : List (String × String) :=
  let newValue := if rv.isSymbolic then "ref: " ++ rv.value else rv.value
  let refPath :=
    match getRefInternal refs (refs.length + 1) refName deref with
    | .ok (derefName, _) => derefName
    | .error _ => refName
  setA refs refPath newValue

/-- `Repository::delete_ref`. -/
def deleteRef (refs : List (String × String)) (refName : String)
    (deref : Bool) : Except String (List (String × String)) := do
  let (n, _) ← getRefInternal refs (refs.length + 1) refName deref
  pure (eraseA refs n)

/-! ### Object store (`hash_object`, `get_oid_hash`, `get_object`) -/

/-- `Repository::is_hash`: 40 ASCII hex digits. -/
def isHashB (s : String) : Bool :=
  s.data.length = 40 && s.data.all isHexDigitChar

/-- The header `"<kind> <len>\0"` prepended by `hash_object`, as characters
(the final element is the NUL character). -/
def objectHeaderChars (t : ObjectType) (len : Nat) : List Char :=
  t.asStr.data ++ [' '] ++ natDecChars len ++ [Char.ofNat 0]

/-- `Repository::hash_object` acting on the object-store map: build
`header ++ data`, hash it, and write it at the OID (idempotent overwrite). -/
def hashObjectO (hashFn : Bytes → String) (objects : List (String × Bytes))
    (data : Bytes) (t : ObjectType) : String × List (String × Bytes) :=
  let objectData := utf8Encode (objectHeaderChars t data.length) ++ data
  let hashStr := hashFn objectData
  (hashStr, setA objects hashStr objectData)

/-- `Repository::hash_object` on the full repository state. -/
def hashObject (hashFn : Bytes → String) (repo : Repo) (data : Bytes)
    (t : ObjectType) : String × Repo :=
  let (h, objects) := hashObjectO hashFn repo.objects data t
  (h, { repo with objects := objects })

/-- Try `get_ref(name, true)` on each candidate in turn (`get_oid_hash` loop). -/
def tryRefs (refs : List (String × String)) : List String → Option String
  | [] => none
  | r :: rest =>
      match getRef refs r true with
      | .ok rv => some rv.value
      | .error _ => tryRefs refs rest

/-- `Repository::get_oid_hash`: `@` means HEAD; a 40-hex value stands for
itself; otherwise the value is tried as a ref name under the documented
prefixes. -/
def getOidHash (repo : Repo) (value : String) : Except String String :=
  let v := if value = "@" then "HEAD" else value
  if isHashB v then .ok v
  else
    match tryRefs repo.refs [v, "refs/" ++ v, "refs/tags/" ++ v,
        "refs/heads/" ++ v] with
    | some h => .ok h
    | none => .error ("Oid hash not found for: " ++ v)

/-- `fs::read` of the object file keyed by the OID. -/
def readStored (repo : Repo) (h : String) : Except String Bytes :=
  match lookupA repo.objects h with
  | some d => .ok d
  | none => .error ("Failed to read object: " ++ h)

/-- Position of the first NUL byte (`iter().position(|&b| b == 0)`). -/
def findNulIdx (objectData : Bytes) : Except String Nat :=
  match List.findIdx? (fun b => b == 0) objectData with
  | some i => .ok i
  | none => .error "Invalid object format: missing null byte"

/-- `String::from_utf8` with the `get_object` error message. -/
def decodeHeaderChars (b : Bytes) : Except String (List Char) :=
  match utf8Decode b with
  | some cs => .ok cs
  | none => .error "Invalid header encoding"

/-- The two `parts.next()` calls of `get_object`: a kind token and a size
token must be present (their values are never inspected). -/
def headerTokensOk (headerChars : List Char) : Except String Unit :=
  match splitWs headerChars with
  | [] => .error "Missing object type"
  | [_] => .error "Missing object size"
  | _ :: _ :: _ => .ok ()

/-- `Repository::get_object`: resolve the OID, read the stored bytes, locate
the first NUL, require the pre-NUL header to be UTF-8 with at least a kind
token and a size token, and return everything after the NUL.  (The Rust code
panics on an OID shorter than two characters when splitting the path; such an
OID never names a stored object, so it is subsumed by the read failure.) -/
def getObject (repo : Repo) (hash : String) : Except String Bytes := do
  let h ← getOidHash repo hash
  let objectData ← readStored repo h
  let headerEnd ← findNulIdx objectData
  let headerChars ← decodeHeaderChars (objectData.take headerEnd)
  let _ ← headerTokensOk headerChars
  pure (objectData.drop (headerEnd + 1))

/-! ### Tree object parsing (`get_tree_data` and the loop inside `read_tree`)

Each record is `"<mode> <name>\0"` followed by 20 raw hash bytes.  Both Rust
loops advance `pos` past `null_pos + 21` bytes per record; the shared fueled
loop below returns the `(mode, name, hex-hash)` triples.  Fuel of at least the
byte length suffices since every record consumes at least one byte. -/
def treeRecordsAux : Nat → Bytes → Except String (List (String × String × String))
  | _, [] => .ok []
  | 0, _ :: _ => .error "Invalid tree format: fuel exhausted"
  | fuel + 1, data => do
      match List.findIdx? (· == 0) data with
      | none => .error "Invalid tree format: missing null byte"
      | some nullPos =>
          match utf8Decode (data.take nullPos) with
          | none => .error "Invalid mode/name encoding"
          | some modeName =>
              let parts := splitWs modeName
              match parts with
              | [] => .error "Missing mode"
              | [_] => .error "Missing name"
              | mode :: nm :: _ =>
                  if data.length < nullPos + 1 + 20 then
                    .error "Invalid tree format: truncated hash"
                  else
                    let hashHex := hexEncode ((data.drop (nullPos + 1)).take 20)
                    let rest := data.drop (nullPos + 21)
                    (⟨⟨mode⟩, ⟨nm⟩, hashHex⟩ :: ·) <$> treeRecordsAux fuel rest

/-- The record sequence of a raw tree payload. -/
def treeRecords (data : Bytes) : Except String (List (String × String × String)) :=
  treeRecordsAux data.length data

/-- `Repository::get_tree_data`: parse records and classify each mode,
rejecting any mode other than `100644` / `40000`. -/
def getTreeData (repo : Repo) (treeOid : String) :
    Except String (List (String × String × String × ObjectType)) := do
  let oid ← getOidHash repo treeOid
  let data ← getObject repo oid
  let recs ← treeRecords data
  recs.mapM (fun (mode, nm, h) =>
    match mode with
    | "100644" => .ok (mode, nm, h, ObjectType.blob)
    | "40000" => .ok (mode, nm, h, ObjectType.tree)
    | _ => .error ("Unsupported mode: " ++ mode))

/-! ### Tree building (`create_tree`)

`create_tree` walks a directory, hashes files as blobs and subdirectories as
trees, serialises each entry as `"<mode> <name>\0" ++ raw-hash`, sorts the
serialised records (Rust `Vec<Vec<u8>>::sort`, i.e. byte-wise lexicographic
order on whole records), concatenates them and stores the result as a tree
object.  The directory listing order is the model's enumeration order (Rust
`read_dir` order is unspecified; the sort makes the result independent of
it only to the extent proved below). -/

/-- Byte-wise lexicographic `≤` on byte lists (Rust `Ord for Vec<u8>`). -/
def bytesLe : Bytes → Bytes → Bool
  | [], _ => true
  | _ :: _, [] => false
  | a :: as_, b :: bs =>
      if a < b then true else if b < a then false else bytesLe as_ bs

/-- One serialised tree entry record: `"<mode> <name>\0" ++ raw hash`. -/
def treeEntryRecord (mode nm : String) (rawHash : Bytes) : Bytes :=
  utf8Encode (mode.data ++ [' '] ++ nm.data ++ [Char.ofNat 0]) ++ rawHash

/-- `Repository::create_tree` on the object store.  `fuel` bounds directory
nesting depth.  Returns the new tree's OID and the extended store.  The
`hex::decode(hash).unwrap()` of the Rust code is modelled as an error on a
non-hex hash (never reached when `hashFn` produces hex output). -/
def createTreeAux (hashFn : Bytes → String) (ignore : List String → Bool) :
    Nat → List String → List (String × FsNode) → List (String × Bytes) →
    Except String (String × List (String × Bytes))
  | 0, _, _, _ => .error "create_tree: directory nesting too deep"
  | fuel + 1, pathPfx, listing, objects0 => do
      let (entries, objects) ←
        listing.foldlM (fun (acc : List Bytes × List (String × Bytes)) e => do
          let (entries, objects) := acc
          let (nm, node) := e
          if ignore (pathPfx ++ [nm]) then
            pure (entries, objects)
          else
            match node with
            | .file content =>
                let (h, objects') := hashObjectO hashFn objects content .blob
                match hexDecode h with
                | none => .error "create_tree: non-hex blob hash"
                | some raw =>
                    pure (entries ++ [treeEntryRecord "100644" nm raw], objects')
            | .dir sub => do
                let (h, objects') ←
                  createTreeAux hashFn ignore fuel (pathPfx ++ [nm]) sub objects
                match hexDecode h with
                | none => .error "create_tree: non-hex tree hash"
                | some raw =>
                    pure (entries ++ [treeEntryRecord "40000" nm raw], objects'))
          ([], objects0)
      let sorted := insertionSort bytesLe entries
      let treeData := sorted.flatten
      pure (hashObjectO hashFn objects treeData .tree)

/-- `Repository::create_tree` at the working-tree root. -/
def createTree (hashFn : Bytes → String) (ignore : List String → Bool)
    (fuel : Nat) (repo : Repo) : Except String (String × Repo) := do
  let (h, objects) ← createTreeAux hashFn ignore fuel [] repo.worktree repo.objects
  pure (h, { repo with objects := objects })

/-- The record-building loop of `create_tree` in isolation (the `for entry in
entries` walk of `repository.rs:209-238` before the sort): the serialised
entry records of one directory listing, in listing order, together with the
object store extended by the hashed blobs and subtrees.  This is verbatim the
fold inside `createTreeAux`. -/
def createTreeEntries (hashFn : Bytes → String) (ignore : List String → Bool)
    (fuel : Nat) (pathPfx : List String) (listing : List (String × FsNode))
    (objects0 : List (String × Bytes)) :
    Except String (List Bytes × List (String × Bytes)) :=
  listing.foldlM (fun (acc : List Bytes × List (String × Bytes)) e => do
    let (entries, objects) := acc
    let (nm, node) := e
    if ignore (pathPfx ++ [nm]) then
      pure (entries, objects)
    else
      match node with
      | .file content =>
          let (h, objects') := hashObjectO hashFn objects content .blob
          match hexDecode h with
          | none => .error "create_tree: non-hex blob hash"
          | some raw =>
              pure (entries ++ [treeEntryRecord "100644" nm raw], objects')
      | .dir sub => do
          let (h, objects') ←
            createTreeAux hashFn ignore fuel (pathPfx ++ [nm]) sub objects
          match hexDecode h with
          | none => .error "create_tree: non-hex tree hash"
          | some raw =>
              pure (entries ++ [treeEntryRecord "40000" nm raw], objects'))
    ([], objects0)

/-! ### Commit codec (`get_commit`, `create_commit`) -/

/-- The header/message fold of `Repository::get_commit`, over `lines()`. -/
def commitParseLines :
    List (List Char) → Option (List Char) × List String × Option (List Char) ×
      List Char × Bool → Option (List Char) × List String × Option (List Char) ×
      List Char × Bool
  | [], st => st
  | line :: rest, (tree?, parents, ts?, msg, inMsg) =>
      if inMsg then
        commitParseLines rest (tree?, parents, ts?, msg ++ line ++ ['\n'], true)
      else if line = [] then
        commitParseLines rest (tree?, parents, ts?, msg, true)
      else if "tree ".data.isPrefixOf line then
        commitParseLines rest
          (some (line.drop 5), parents, ts?, msg, false)
      else if "parent ".data.isPrefixOf line then
        commitParseLines rest
          (tree?, parents ++ [⟨line.drop 7⟩], ts?, msg, false)
      else if "timestamp ".data.isPrefixOf line then
        commitParseLines rest (tree?, parents, some (line.drop 10), msg, false)
      else commitParseLines rest (tree?, parents, ts?, msg, false)

/-- `Repository::get_commit`. -/
def getCommit (repo : Repo) (hash : String) : Except String CommitObj := do
  let h ← getOidHash repo hash
  let commitData ← getObject repo h
  match utf8Decode commitData with
  | none => .error "Invalid commit encoding"
  | some chars =>
      let (tree?, parents, ts?, msg, _) :=
        commitParseLines (rustLines chars) (none, [], none, [], false)
      match tree? with
      | none => .error "Missing tree hash in commit"
      | some treeChars =>
          match ts? with
          | none => .error "Missing timestamp in commit"
          | some tsChars =>
              .ok ⟨h, ⟨treeChars⟩, parents, ⟨tsChars⟩,
                ⟨(msg.reverse.dropWhile isWsChar).reverse⟩⟩

/-- `Repository::create_commit`.  `now` stands for the formatted
`chrono::Utc::now()` string.  Serialises the tree line, the optional HEAD
parent (only when the resolved HEAD value is a 40-hex hash), the MERGE_HEAD
parent (deleting MERGE_HEAD) when that ref resolves, the timestamp, a blank
line and the message, stores the bytes as a commit object, and points HEAD
(through its symbolic chain) at the new commit. -/
def createCommit (hashFn : Bytes → String) (ignore : List String → Bool)
    (fuel : Nat) (now : String) (repo : Repo) (message : String) :
    Except String (String × Repo) := do
  if strTrim message = "" then
    .error "Commit message cannot be empty"
  else
    let (treeOid, repo1) ← createTree hashFn ignore fuel repo
    let parentChunk : List Char :=
      match getRef repo1.refs "HEAD" true with
      | .ok parentHash =>
          if isHashB parentHash.value then
            ("parent " ++ parentHash.value ++ "\n").data
          else []
      | .error _ => []
    let (mergeChunk, refs1) ←
      match getRef repo1.refs "MERGE_HEAD" true with
      | .ok mergeHead => do
          let refs' ← deleteRef repo1.refs "MERGE_HEAD" false
          pure (("parent " ++ mergeHead.value ++ "\n").data, refs')
      | .error _ => pure (([] : List Char), repo1.refs)
    let commitChars : List Char :=
      ("tree " ++ treeOid ++ "\n").data ++ parentChunk ++ mergeChunk ++
        ("timestamp " ++ now).data ++ ['\n', '\n'] ++ message.data ++ ['\n']
    let (h, objects) :=
      hashObjectO hashFn repo1.objects (utf8Encode commitChars) .commit
    let refs2 := setRef refs1 "HEAD" ⟨h, false⟩ true
    pure (h, { repo1 with objects := objects, refs := refs2 })

/-- The serialised characters of a single-parent commit (the `commit_content`
string built by `create_commit` when HEAD resolves to a hash and MERGE_HEAD is
absent). -/
def commitCharsOf (treeOid parentOid now message : String) : List Char :=
  ("tree " ++ treeOid ++ "\n").data ++ ("parent " ++ parentOid ++ "\n").data ++
    [] ++ ("timestamp " ++ now).data ++ ['\n', '\n'] ++ message.data ++ ['\n']

/-- The stored object bytes of that commit: header plus UTF-8 payload. -/
def commitObjOf (treeOid parentOid now message : String) : Bytes :=
  utf8Encode (objectHeaderChars .commit
    (utf8Encode (commitCharsOf treeOid parentOid now message)).length) ++
  utf8Encode (commitCharsOf treeOid parentOid now message)

/-! ### Commit graph (`get_commit_ancestors`, `iter_commits_and_parents`,
`get_merge_base`)

Both Rust traversals share one worklist loop: skip an already-visited OID,
otherwise record it and enqueue its parents at the back of the queue.  They
differ only in the side the next OID is taken from: `get_commit_ancestors`
uses `pop_front` (FIFO) while `iter_commits_and_parents` uses `pop_back`
(LIFO).  The shared loop below is parameterised by that choice. -/

/-- Take the next element of the worklist from the front (`lifo = false`,
`VecDeque::pop_front`) or the back (`lifo = true`, `VecDeque::pop_back`). -/
def popQ (lifo : Bool) (q : List String) : Option (String × List String) :=
  if lifo then
    match q.getLast? with
    | none => none
    | some x => some (x, q.dropLast)
  else
    match q with
    | [] => none
    | x :: xs => some (x, xs)

/-- The shared worklist loop.  `acc` is the visited list, which is also the
result (`ancestors` in `get_commit_ancestors`; `visited`/`result` in
`iter_commits_and_parents`, which always grow together). -/
def commitWalk (repo : Repo) (lifo : Bool) :
    Nat → List String → List String → Except String (List String)
  | 0, _, _ => .error "commit walk: fuel exhausted"
  | fuel + 1, acc, queue =>
      match popQ lifo queue with
      | none => .ok acc
      | some (cur, rest) =>
          if acc.contains cur then commitWalk repo lifo fuel acc rest
          else do
            let c ← getCommit repo cur
            commitWalk repo lifo fuel (acc ++ [cur]) (rest ++ c.parents)

/-- `Repository::get_commit_ancestors` (breadth-first). -/
def getCommitAncestors (fuel : Nat) (repo : Repo) (commitHash : String) :
    Except String (List String) :=
  commitWalk repo false fuel [] [commitHash]

/-- `Repository::iter_commits_and_parents` (pop from the back: depth-first). -/
def iterCommitsAndParents (fuel : Nat) (repo : Repo) (oids : List String) :
    Except String (List String) :=
  commitWalk repo true fuel [] oids

/-- `Repository::get_merge_base`. -/
def getMergeBase (fuel : Nat) (repo : Repo) (commitHash1 commitHash2 : String) :
    Except String String := do
  let commit1 ← getOidHash repo commitHash1
  let commit2 ← getOidHash repo commitHash2
  if commit1 = commit2 then .ok commit1
  else do
    let ancestors1 ← getCommitAncestors fuel repo commit1
    let ancestors2 ← getCommitAncestors fuel repo commit2
    match ancestors1.find? (fun a => ancestors2.contains a) with
    | some a => .ok a
    | none => .error "No common ancestor found between commits"

/-! ### Differ: `compare_trees` (`differ.rs`)

The BFS state is the entries map (path to recorded type and per-input OID
slots, in insertion order), the per-input visited-OID sets, and the worklist
of `(input index, tree OID, path prefix)` triples. -/

/-- One comparison row: path, recorded kind, one optional OID per input. -/
abbrev CTRow := String × ObjectType × List (Option String)

/-- Lexicographic `≤` on characters by scalar value (Rust byte order on UTF-8
strings coincides with scalar-value order). -/
def charsLe : List Char → List Char → Bool
  | [], _ => true
  | _ :: _, [] => false
  | a :: as_, b :: bs =>
      if a.toNat < b.toNat then true
      else if b.toNat < a.toNat then false
      else charsLe as_ bs

def strLe (a b : String) : Bool := charsLe a.data b.data

/-- The entry-management block of `compare_trees` (lines 59–80 of
`differ.rs`): fetch or create the row for `path` (fresh rows get the entry's
type and `numTrees` empty slots), upgrade the recorded type to `tree` when the
new entry is a tree, and store the OID in slot `i`. -/
def ctRecordEntry (numTrees i : Nat) (path oid : String) (otype : ObjectType)
    (entries : List (String × ObjectType × List (Option String))) :
    Except String (List (String × ObjectType × List (Option String))) :=
  let (t0, oids0) :=
    match lookupA entries path with
    | some tv => tv
    | none => (otype, List.replicate numTrees none)
  let t1 := if t0 ≠ otype ∧ otype = .tree then ObjectType.tree else t0
  if i < oids0.length then
    .ok (setA entries path (t1, oids0.set i (some oid)))
  else .error ("Logic error: OID vector index out of bounds for path " ++ path)

/-- Relative path of an entry: `name` at the root, else `prefix/name`. -/
def ctPath (pfx nm : String) : String :=
  if pfx = "" then nm else pfx ++ "/" ++ nm

/-- Processing of a single parsed tree entry inside the `compare_trees` BFS:
record it in the entries map, and when it is an unvisited subtree for this
input, mark it visited and append it to the worklist. -/
def ctStep (numTrees i : Nat) (pfx : String)
    (td : String × String × String × ObjectType)
    (st : List (String × ObjectType × List (Option String)) ×
      List (List String) × List (Nat × String × String)) :
    Except String (List (String × ObjectType × List (Option String)) ×
      List (List String) × List (Nat × String × String)) := do
  let (entries, visited, queue) := st
  let (_, nm, oid, otype) := td
  let path := ctPath pfx nm
  let entries' ← ctRecordEntry numTrees i path oid otype entries
  if otype = .tree ∧ ¬ (visited.getD i []).contains oid then
    pure (entries', visited.set i ((visited.getD i []) ++ [oid]),
      queue ++ [(i, oid, path)])
  else
    pure (entries', visited, queue)

/-- The `compare_trees` BFS loop: pop the front of the worklist, read that
tree (an unreadable tree is skipped with a warning), and fold `ctStep` over
its entries. -/
def compareTreesLoop (repo : Repo) (numTrees : Nat) :
    Nat → List (String × ObjectType × List (Option String)) →
    List (List String) → List (Nat × String × String) →
    Except String (List (String × ObjectType × List (Option String)))
  | 0, _, _, _ => .error "compare_trees: fuel exhausted"
  | fuel + 1, entries, visited, queue =>
      match queue with
      | [] => .ok entries
      | (i, oid, pfx) :: queueRest =>
          match getTreeData repo oid with
          | .error _ => compareTreesLoop repo numTrees fuel entries visited queueRest
          | .ok treeData => do
              let (entries', visited', queue') ←
                treeData.foldlM (fun st td => ctStep numTrees i pfx td st)
                  (entries, visited, queueRest)
              compareTreesLoop repo numTrees fuel entries' visited' queue'

/-- Initial worklist and visited sets: each non-empty root is enqueued with an
empty prefix and pre-marked visited for its own input index. -/
def ctInit (trees : List String) :
    List (List String) × List (Nat × String × String) :=
  (trees.map (fun t => if t = "" then [] else [t]),
    (trees.enum.filterMap (fun (i, t) =>
      if t = "" then none else some (i, t, ""))))

/-- `Differ::compare_trees`: run the BFS and sort the rows by path. -/
def compareTrees (fuel : Nat) (repo : Repo) (trees : List String) :
    Except String (List CTRow) := do
  let (visited, queue) := ctInit trees
  let entries ← compareTreesLoop repo trees.length fuel [] visited queue
  pure (insertionSort (fun a b => strLe a.1 b.1) entries)

/-- Invariant of the `compare_trees` entries map: every row carries one OID
slot per input tree, and no path has two rows. -/
def ctInv (numTrees : Nat)
    (entries : List (String × ObjectType × List (Option String))) : Prop :=
  (∀ r ∈ entries, r.2.2.length = numTrees) ∧
    (entries.map (fun r => r.1)).Nodup

/-! ### Differ: blob and tree merging -/

/-- `Differ::merge_blobs_three_way`.  The first four branches short-circuit on
OID equality; the remaining conflict case reads all three contents (absent
inputs read as empty) and delegates to the external `diff3 -m` invocation,
modelled by the `diff3` parameter applied to (head, base, other) in the
argument order of the Rust command line. -/
def mergeBlobsThreeWay (diff3 : Bytes → Bytes → Bytes → Bytes) (repo : Repo)
    (oBase oHead oOther : Option String) : Except String Bytes := do
  if oBase = oHead ∧ oHead = oOther then
    match oBase with
    | some oid => getObject repo oid
    | none => pure []
  else if oHead = oOther then
    match oHead with
    | some oid => getObject repo oid
    | none => pure []
  else if oBase = oHead then
    match oOther with
    | some oid => getObject repo oid
    | none => pure []
  else if oBase = oOther then
    match oHead with
    | some oid => getObject repo oid
    | none => pure []
  else do
    let baseContent ← match oBase with
      | some oid => getObject repo oid
      | none => pure []
    let headContent ← match oHead with
      | some oid => getObject repo oid
      | none => pure []
    let otherContent ← match oOther with
      | some oid => getObject repo oid
      | none => pure []
    pure (diff3 headContent baseContent otherContent)

/-- A merged-tree entry: file content (`Ok(content)` in Rust) or a directory
marker (`Err(())`). -/
inductive MergedEntry where
  | fileContent (b : Bytes)
  | dirMarker
deriving DecidableEq, Repr

/-- `Differ::merge_trees`: compare `[base-or-empty, head, other]` and decide
each row: blobs are merged (dropped when deleted on both non-base sides),
trees become directory markers (dropped likewise), and a commit row is a
structural error. -/
def mergeTrees (diff3 : Bytes → Bytes → Bytes → Bytes) (fuel : Nat)
    (repo : Repo) (tHead tOther : String) (tBase : Option String) :
    Except String (List (String × MergedEntry)) := do
  let base := tBase.getD ""
  let entries ← compareTrees fuel repo [base, tHead, tOther]
  entries.foldlM (fun tree (path, otype, oids) => do
    let baseOid := (oids.getD 0 none)
    let headOid := (oids.getD 1 none)
    let otherOid := (oids.getD 2 none)
    match otype with
    | .blob => do
        let mergedContent ← mergeBlobsThreeWay diff3 repo baseOid headOid otherOid
        if baseOid.isSome ∧ headOid.isNone ∧ otherOid.isNone then
          pure tree
        else if headOid.isNone ∧ otherOid.isNone then
          pure tree
        else
          pure (setA tree path (.fileContent mergedContent))
    | .tree =>
        if baseOid.isSome ∧ headOid.isNone ∧ otherOid.isNone then
          pure tree
        else if headOid.isSome ∨ otherOid.isSome then
          pure (setA tree path .dirMarker)
        else
          pure tree
    | .commit =>
        .error ("Unexpected Commit object type found for path " ++ path)) []

/-! ### Working-tree materialisation (`read_tree`, `empty_current_directory`,
`read_tree_merged`) -/

/-- `Repository::empty_current_directory` on one directory listing: delete
every entry whose path is not ignored. -/
def emptyCurrentDirectory (ignore : List String → Bool) (pathPfx : List String)
    (listing : List (String × FsNode)) : List (String × FsNode) :=
  listing.filter (fun e => ignore (pathPfx ++ [e.1]))

/-- `Repository::read_tree` on one directory: empty it (ignored entries are
kept), then materialise each parsed tree entry — blobs are written as files,
subtrees are created as directories and recursed into.  Writing a file over an
existing directory, or creating a directory over an existing file, is the
filesystem error the corresponding Rust call would produce. -/
def readTreeDir (ignore : List String → Bool) (repo : Repo) :
    Nat → String → List String → List (String × FsNode) →
    Except String (List (String × FsNode))
  | 0, _, _, _ => .error "read_tree: tree nesting too deep"
  | fuel + 1, treeOid, pathPfx, listing => do
      let cur := emptyCurrentDirectory ignore pathPfx listing
      let oid ← getOidHash repo treeOid
      let treeData ← getObject repo oid
      let recs ← treeRecords treeData
      recs.foldlM (fun acc (mode, nm, h) => do
        if ignore (pathPfx ++ [nm]) then
          pure acc
        else if mode = "100644" then do
          let content ← getObject repo h
          match lookupA acc nm with
          | some (.dir _) => .error ("Failed to write file " ++ nm)
          | _ => pure (setA acc nm (.file content))
        else if mode = "40000" then
          match lookupA acc nm with
          | some (.file _) => .error ("Failed to create directory " ++ nm)
          | some (.dir sub) => do
              let sub' ← readTreeDir ignore repo fuel h (pathPfx ++ [nm]) sub
              pure (setA acc nm (.dir sub'))
          | none => do
              let sub' ← readTreeDir ignore repo fuel h (pathPfx ++ [nm]) []
              pure (setA acc nm (.dir sub'))
        else .error ("Unsupported mode: " ++ mode)) cur

/-- `Repository::read_tree` at the working-tree root (the effect of a failed
run on the filesystem is not modelled; only successful runs are claimed). -/
def readTree (ignore : List String → Bool) (fuel : Nat) (repo : Repo)
    (treeOid : String) : Except String Worktree :=
  readTreeDir ignore repo fuel treeOid [] repo.worktree

/-- Path components of a merged-map path (split at `/`). -/
def pathComponents (p : String) : List String :=
  (splitNl (p.data.map (fun c => if c = '/' then '\n' else c))).map
    (fun l => ⟨l⟩)

/-- Look up a node at a component path. -/
def wtLookup (wt : Worktree) : List String → Option FsNode
  | [] => none
  | [c] => lookupA wt c
  | c :: rest =>
      match lookupA wt c with
      | some (.dir sub) => wtLookup sub rest
      | _ => none

/-- `fs::create_dir_all`: create the directory chain, failing on a file in
the way. -/
def wtMkdirAll (wt : Worktree) : List String → Except String Worktree
  | [] => .ok wt
  | c :: rest => do
      match lookupA wt c with
      | some (.file _) => .error ("Failed to create directory " ++ c)
      | some (.dir sub) => do
          let sub' ← wtMkdirAll sub rest
          pure (setA wt c (.dir sub'))
      | none => do
          let sub' ← wtMkdirAll [] rest
          pure (setA wt c (.dir sub'))

/-- `fs::write` at a component path (parents must exist as directories). -/
def wtWriteFile (wt : Worktree) (comps : List String) (content : Bytes) :
    Except String Worktree :=
  match comps with
  | [] => .error "Failed to write file: empty path"
  | [c] =>
      match lookupA wt c with
      | some (.dir _) => .error ("Failed to write file " ++ c)
      | _ => .ok (setA wt c (.file content))
  | c :: rest =>
      match lookupA wt c with
      | some (.dir sub) => do
          let sub' ← wtWriteFile sub rest content
          pure (setA wt c (.dir sub'))
      | _ => .error ("Failed to write file " ++ c)

/-- Materialisation of one merged-map entry (the loop body of
`read_tree_merged`): ensure the parent directory exists (created only when the
parent path does not exist at all), then write the file (a directory in the
way is the `Merge conflict` error) or create the directory (a file in the way
likewise). -/
def rtmApply (wt : Worktree) (path : String) (entry : MergedEntry) :
    Except String Worktree := do
  let comps := pathComponents path
  let parent := comps.dropLast
  let wt1 ←
    if (wtLookup wt parent).isNone && !parent.isEmpty then wtMkdirAll wt parent
    else pure wt
  match entry with
  | .fileContent content =>
      match wtLookup wt1 comps with
      | some (.dir _) =>
          .error ("Merge conflict: trying to write file " ++ path ++
            " where a directory exists.")
      | _ => wtWriteFile wt1 comps content
  | .dirMarker =>
      match wtLookup wt1 comps with
      | some (.file _) =>
          .error ("Merge conflict: trying to create directory " ++ path ++
            " where a file exists.")
      | some (.dir _) => pure wt1
      | none => wtMkdirAll wt1 comps

/-- `Repository::read_tree_merged`: empty the working directory, compute the
merged tree map, and materialise its entries in sorted path order. -/
def readTreeMerged (diff3 : Bytes → Bytes → Bytes → Bytes)
    (ignore : List String → Bool) (fuel : Nat) (repo : Repo)
    (headTreeOid otherTreeOid : String) (baseTreeOid : Option String) :
    Except String Worktree := do
  let wt0 := emptyCurrentDirectory ignore [] repo.worktree
  let merged ← mergeTrees diff3 fuel repo headTreeOid otherTreeOid baseTreeOid
  let paths := insertionSort strLe (merged.map (·.1))
  paths.foldlM (fun wt path =>
    match lookupA merged path with
    | some entry => rtmApply wt path entry
    | none => pure wt) wt0

/-! ### Orchestration: `merge` and `reset` -/

/-- `Repository::merge`.  The `.unwrap()` calls of the Rust code are modelled
as error propagation.  Fast-forward case (merge base equals the current HEAD
commit): materialise the other branch's tree and write its OID directly into
HEAD (`deref = false`).  Otherwise: set MERGE_HEAD, materialise the merged
tree, and delete MERGE_HEAD again before returning. -/
def merge (diff3 : Bytes → Bytes → Bytes → Bytes)
    (ignore : List String → Bool) (fuel : Nat) (repo : Repo)
    (branchName : String) : Except String Repo := do
  let headRef ← getRef repo.refs "HEAD" true
  let branchRef ← getRef repo.refs ("refs/heads/" ++ branchName) true
  let currHeadCommit ← getCommit repo headRef.value
  let branchHeadCommit ← getCommit repo branchRef.value
  let mb ← getMergeBase fuel repo currHeadCommit.oid branchHeadCommit.oid
  let baseCommit ← getCommit repo mb
  if baseCommit.oid = currHeadCommit.oid then do
    let wt ← readTree ignore fuel repo branchHeadCommit.tree
    let refs' := setRef repo.refs "HEAD" ⟨branchRef.value, false⟩ false
    pure { repo with worktree := wt, refs := refs' }
  else do
    let refs1 := setRef repo.refs "MERGE_HEAD" ⟨branchRef.value, false⟩ false
    let repo1 := { repo with refs := refs1 }
    let wt ← readTreeMerged diff3 ignore fuel repo1 currHeadCommit.tree
      branchHeadCommit.tree (some baseCommit.tree)
    let refs2 ← deleteRef refs1 "MERGE_HEAD" false
    pure { repo1 with worktree := wt, refs := refs2 }

/-- `Repository::reset`: check the commit exists, materialise its tree, and
point HEAD (through its symbolic chain, `deref = true`) at the commit. -/
def reset (ignore : List String → Bool) (fuel : Nat) (repo : Repo)
    (commitHash : String) : Except String Repo := do
  let c ←
    match getCommit repo commitHash with
    | .ok c => pure c
    | .error _ => .error ("Commit with hash: " ++ commitHash ++ " not found")
  let wt ← readTree ignore fuel repo c.tree
  let refs' := setRef repo.refs "HEAD" ⟨commitHash, false⟩ true
  pure { repo with worktree := wt, refs := refs' }

/-! ### Specification-side reference definitions -/

/-- Modelled from the spec (§4.5 `topological_unique`): "BFS over the union of
ancestor sets of the given starting OIDs, each commit emitted once" — the
first-in-first-out worklist enumeration, for comparison with
`iterCommitsAndParents`. -/
def specBfsEnumeration (fuel : Nat) (repo : Repo) (oids : List String) :
    Except String (List String) :=
  commitWalk repo false fuel [] oids

/-- Reachability through successfully parsed commits: the ancestor relation
generated by following each parent edge of each readable commit. -/
inductive ReachObj (repo : Repo) : String → String → Prop where
  | refl (x : String) : ReachObj repo x x
  | step {x y p : String} (hxy : ReachObj repo x y) (c : CommitObj)
      (hc : getCommit repo y = .ok c) (hp : p ∈ c.parents) : ReachObj repo x p

/-- Modelled from the spec (§4.6): the set of relative paths "present in" a
tree — every entry of the root contributes its path, and subtrees are expanded
recursively regardless of OID repetition.  Used to compare `compare_trees`
output against the paths logically present in an input. -/
def specTreePaths (repo : Repo) : Nat → String → String → List String
  | 0, _, _ => []
  | fuel + 1, treeOid, pfx =>
      match getTreeData repo treeOid with
      | .error _ => []
      | .ok entries =>
          entries.flatMap (fun (_, nm, oid, otype) =>
            let path := ctPath pfx nm
            match otype with
            | .tree => path :: specTreePaths repo fuel oid path
            | _ => [path])

/-! ### Concrete repositories used by witnesses and counterexamples -/

/-- A 40-character OID made of one repeated hex digit. -/
def mkOid (c : Char) : String := ⟨List.replicate 40 c⟩

/-- A stored object: header `"<kind> <len>\0"` plus payload. -/
def mkObjS (kind : String) (payload : Bytes) : Bytes :=
  utf8Encode (kind.data ++ [' '] ++ natDecChars payload.length ++
    [Char.ofNat 0]) ++ payload

/-- Commit payload text with fixed timestamp `t` and message `m`. -/
def commitPayload (tree : String) (parents : List String) : Bytes :=
  strBytes ("tree " ++ tree ++ "\n" ++
    String.join (parents.map (fun p => "parent " ++ p ++ "\n")) ++
    "timestamp t\n\nm\n")

/-- The raw 20-byte hash whose hex form is `mkOid c`. -/
def rawOf (c : Char) : Bytes := List.replicate 20 ((hexDigitVal c).getD 0 * 17)

/-- A trivial ignore predicate (no `.bgitignore`, no reserved names hit). -/
def noIgnore : List String → Bool := fun _ => false

/-- A placeholder for the external `diff3 -m` call (never reached in the
scenarios below). -/
def dummyDiff3 : Bytes → Bytes → Bytes → Bytes := fun _ _ _ => []

/-- Commit diamond: `c` has parents `a` and `b`, both children of `e`. -/
def diamondRepo : Repo :=
  { objects :=
      [(mkOid 'c', mkObjS "commit" (commitPayload (mkOid 'f') [mkOid 'a', mkOid 'b'])),
       (mkOid 'a', mkObjS "commit" (commitPayload (mkOid 'f') [mkOid 'e'])),
       (mkOid 'b', mkObjS "commit" (commitPayload (mkOid 'f') [mkOid 'e'])),
       (mkOid 'e', mkObjS "commit" (commitPayload (mkOid 'f') []))],
    refs := [], worktree := [] }

/-- Fast-forward scenario: `feature` (commit `b`, tree `2` holding `f.txt`)
is a child of `master`'s commit `a` (empty tree `1`); HEAD is attached to
`master`. -/
def ffRepo : Repo :=
  { objects :=
      [(mkOid 'a', mkObjS "commit" (commitPayload (mkOid '1') [])),
       (mkOid 'b', mkObjS "commit" (commitPayload (mkOid '2') [mkOid 'a'])),
       (mkOid '1', mkObjS "tree" []),
       (mkOid '2', mkObjS "tree" (treeEntryRecord "100644" "f.txt" (rawOf 'd'))),
       (mkOid 'd', mkObjS "blob" (strBytes "hello"))],
    refs := [("HEAD", "ref: refs/heads/master\n"),
             ("refs/heads/master", mkOid 'a'),
             ("refs/heads/feature", mkOid 'b')],
    worktree := [] }

/-- Diverged scenario: `master` at `a` and `feature` at `b` are independent
children of `0`; all commits share the empty tree `e`. -/
def nffRepo : Repo :=
  { objects :=
      [(mkOid '0', mkObjS "commit" (commitPayload (mkOid 'e') [])),
       (mkOid 'a', mkObjS "commit" (commitPayload (mkOid 'e') [mkOid '0'])),
       (mkOid 'b', mkObjS "commit" (commitPayload (mkOid 'e') [mkOid '0'])),
       (mkOid 'e', mkObjS "tree" [])],
    refs := [("HEAD", "ref: refs/heads/master\n"),
             ("refs/heads/master", mkOid 'a'),
             ("refs/heads/feature", mkOid 'b')],
    worktree := [] }

/-- Aliased-subtree scenario: the root tree `1` lists directories `a` and `b`
that point at the same subtree OID `2`, which holds the file `f`. -/
def aliasRepo : Repo :=
  { objects :=
      [(mkOid '1', mkObjS "tree" (treeEntryRecord "40000" "a" (rawOf '2') ++
          treeEntryRecord "40000" "b" (rawOf '2'))),
       (mkOid '2', mkObjS "tree" (treeEntryRecord "100644" "f" (rawOf '3')))],
    refs := [], worktree := [] }

/-- Blob store for the merge identity laws: four distinct blobs. -/
def blobRepo : Repo :=
  { objects :=
      [(mkOid 'a', mkObjS "blob" (strBytes "X")),
       (mkOid 'b', mkObjS "blob" (strBytes "B")),
       (mkOid 'c', mkObjS "blob" (strBytes "H")),
       (mkOid 'd', mkObjS "blob" (strBytes "O"))],
    refs := [], worktree := [] }

/-- A hash stand-in producing a fixed 40-hex string (determinism is all the
claims use). -/
def constHash : Bytes → String := fun _ => mkOid 'a'

/-! ## Theorems -/

theorem ebind_ok {α β : Type} (a : α) (f : α → Except String β) :
    (bind (Except.ok a) f : Except String β) = f a := rfl

theorem ebind_err {α β : Type} (e : String) (f : α → Except String β) :
    (bind (Except.error e) f : Except String β) = .error e := rfl

theorem epure {α : Type} (a : α) : (pure a : Except String α) = .ok a := rfl

/-- A 40-hex string resolves to itself in `get_oid_hash`. -/
theorem getOidHash_of_isHash (repo : Repo) (s : String)
    (h : isHashB s = true) : getOidHash repo s = .ok s := by
  have hne : s ≠ "@" := by
    intro he
    rw [he] at h
    simp [isHashB] at h
  simp [getOidHash, hne, h]

/-! ### C5: `get_merge_base` -/

/-- C5: for commit OIDs `a`, `b` whose ancestor enumerations succeed, if
`a = b` then `get_merge_base` returns `a`; otherwise it returns the first
element of the BFS ancestor enumeration of `a` that is also an ancestor of
`b`, and it fails (with the no-common-ancestor error) exactly when the two
ancestor lists are disjoint. -/
theorem C5_merge_base (fuel : Nat) (repo : Repo) (a b : String)
    (l1 l2 : List String)
    (ha : isHashB a = true) (hb : isHashB b = true)
    (h1 : getCommitAncestors fuel repo a = .ok l1)
    (h2 : getCommitAncestors fuel repo b = .ok l2) :
    (a = b → getMergeBase fuel repo a b = .ok a) ∧
    (a ≠ b → getMergeBase fuel repo a b =
      match l1.find? (fun x => l2.contains x) with
      | some x => .ok x
      | none => .error "No common ancestor found between commits") ∧
    (a ≠ b →
      ((getMergeBase fuel repo a b).isOk = false ↔ ∀ x ∈ l1, x ∉ l2)) := by
  have hcont : ∀ x, l2.contains x = true ↔ x ∈ l2 := by
    intro x
    simp
  have hres : getMergeBase fuel repo a b =
      if a = b then .ok a else
        match l1.find? (fun x => l2.contains x) with
        | some x => .ok x
        | none => .error "No common ancestor found between commits" := by
    by_cases hab : a = b
    · subst hab
      simp [getMergeBase, getOidHash_of_isHash repo a ha, bind, Except.bind]
    · simp [getMergeBase, getOidHash_of_isHash repo a ha,
        getOidHash_of_isHash repo b hb, hab, bind, Except.bind, h1, h2]
  refine ⟨?_, ?_, ?_⟩
  · intro hab
    rw [hres, if_pos hab]
  · intro hab
    rw [hres, if_neg hab]
  · intro hab
    rw [hres, if_neg hab]
    cases hfind : l1.find? (fun x => l2.contains x) with
    | some y =>
        have hy : l2.contains y = true := List.find?_some hfind
        have hymem : y ∈ l1 := List.mem_of_find?_eq_some hfind
        constructor
        · intro hfail
          exact Bool.noConfusion hfail
        · intro hdisj
          exact absurd ((hcont y).mp hy) (hdisj y hymem)
    | none =>
        have hnone := List.find?_eq_none.mp hfind
        constructor
        · intro _ x hx hmem
          exact (hnone x hx) ((hcont x).mpr hmem)
        · intro _
          decide

set_option maxRecDepth 100000 in
/-- Witness for C5 on the commit diamond: the merge base of the two middle
commits is their common parent. -/
theorem C5_merge_base_witness :
    getMergeBase 20 diamondRepo (mkOid 'a') (mkOid 'b') = .ok (mkOid 'e') := by
  have h := C5_merge_base 20 diamondRepo (mkOid 'a') (mkOid 'b')
    [mkOid 'a', mkOid 'e'] [mkOid 'b', mkOid 'e']
    (by decide) (by decide) (by rfl) (by rfl)
  have h2 := h.2.1 (by decide)
  rw [h2]
  rfl

/-! ### C8: `merge_blobs_three_way` identity laws -/

/-- C8: for stored blob OIDs, `merge_blobs_three_way(x, x, x)` returns `x`'s
content; `(base, head, head)` returns `head`'s content; `(base, base, other)`
returns `other`'s content; and when the matching pair is absent the result is
the empty byte string (all-absent, pair-absent with a present base, and the
head/other pair-absent variants). -/
theorem C8_merge_blob_identities (diff3 : Bytes → Bytes → Bytes → Bytes)
    (repo : Repo) (x base head other : String) (bx bb bh bo : Bytes)
    (hx : getObject repo x = .ok bx)
    (hb : getObject repo base = .ok bb)
    (hh : getObject repo head = .ok bh)
    (ho : getObject repo other = .ok bo) :
    mergeBlobsThreeWay diff3 repo (some x) (some x) (some x) = .ok bx ∧
    mergeBlobsThreeWay diff3 repo (some base) (some head) (some head) = .ok bh ∧
    mergeBlobsThreeWay diff3 repo (some base) (some base) (some other) = .ok bo ∧
    mergeBlobsThreeWay diff3 repo none none none = .ok [] ∧
    mergeBlobsThreeWay diff3 repo (some base) none none = .ok [] ∧
    mergeBlobsThreeWay diff3 repo none (some head) (some head) = .ok bh := by
  refine ⟨?_, ?_, ?_, ?_, ?_, ?_⟩
  · simp [mergeBlobsThreeWay, hx]
  · by_cases hbh : base = head
    · subst hbh
      simp [mergeBlobsThreeWay, hh]
    · simp [mergeBlobsThreeWay, hbh, hh]
  · by_cases hbo : base = other
    · subst hbo
      have : bb = bo := by
        have := hb.symm.trans ho
        exact Except.ok.inj this
      subst this
      simp [mergeBlobsThreeWay, hb]
    · simp [mergeBlobsThreeWay, hbo, ho]
  · simp [mergeBlobsThreeWay, pure, Except.pure]
  · simp [mergeBlobsThreeWay, pure, Except.pure]
  · simp [mergeBlobsThreeWay, hh]

set_option maxRecDepth 100000 in
/-- Witness for C8 on the four stored blobs of `blobRepo`. -/
theorem C8_merge_blob_identities_witness :
    mergeBlobsThreeWay dummyDiff3 blobRepo (some (mkOid 'a')) (some (mkOid 'a'))
      (some (mkOid 'a')) = .ok (strBytes "X") ∧
    mergeBlobsThreeWay dummyDiff3 blobRepo (some (mkOid 'b')) (some (mkOid 'c'))
      (some (mkOid 'c')) = .ok (strBytes "H") ∧
    mergeBlobsThreeWay dummyDiff3 blobRepo (some (mkOid 'b')) (some (mkOid 'b'))
      (some (mkOid 'd')) = .ok (strBytes "O") ∧
    mergeBlobsThreeWay dummyDiff3 blobRepo (some (mkOid 'b')) none none =
      .ok [] := by
  have h := C8_merge_blob_identities dummyDiff3 blobRepo (mkOid 'a') (mkOid 'b')
    (mkOid 'c') (mkOid 'd') (strBytes "X") (strBytes "B") (strBytes "H")
    (strBytes "O") (by rfl) (by rfl) (by rfl) (by rfl)
  exact ⟨h.1, h.2.1, h.2.2.1, h.2.2.2.2.1⟩

/-! ### UTF-8 roundtrip -/

theorem utf8Encode_append (l1 l2 : List Char) :
    utf8Encode (l1 ++ l2) = utf8Encode l1 ++ utf8Encode l2 := by
  induction l1 with
  | nil => simp [utf8Encode]
  | cons c rest ih => simp [utf8Encode, ih]

theorem length_le_utf8Encode_length (l : List Char) :
    l.length ≤ (utf8Encode l).length := by
  induction l with
  | nil => simp [utf8Encode]
  | cons c rest ih =>
      have h1 : 1 ≤ (utf8EncodeChar c).length := by
        unfold utf8EncodeChar
        split_ifs <;> simp
      simp only [utf8Encode, List.length_cons, List.length_append]
      omega

theorem utf8DecodeAux_encodeChar (c : Char) (rest : Bytes) (fuel : Nat) :
    utf8DecodeAux (fuel + 1) (utf8EncodeChar c ++ rest) =
      Option.map (fun tail => c :: tail) (utf8DecodeAux fuel rest) := by
  have hv : Nat.isValidChar c.toNat := c.valid
  have hlt : c.toNat < 0x110000 := by
    rcases hv with h | ⟨h1, h2⟩ <;> omega
  have hsur : c.toNat < 0xD800 ∨ 0xE000 ≤ c.toNat := by
    rcases hv with h | ⟨h1, h2⟩
    · exact Or.inl h
    · exact Or.inr h1
  by_cases h1 : c.toNat < 0x80
  · rw [show utf8EncodeChar c = [c.toNat] by
      unfold utf8EncodeChar; rw [if_pos h1]]
    rw [List.cons_append, List.nil_append]
    simp only [utf8DecodeAux]
    rw [if_pos h1, Char.ofNat_toNat]
    cases haux : utf8DecodeAux fuel rest <;> simp [haux, bind]
  · by_cases h2 : c.toNat < 0x800
    · rw [show utf8EncodeChar c =
          [0xC0 + c.toNat / 64, 0x80 + c.toNat % 64] by
        unfold utf8EncodeChar
        rw [if_neg h1, if_pos h2]]
      rw [List.cons_append, List.cons_append, List.nil_append]
      simp only [utf8DecodeAux]
      rw [if_neg (by omega), if_neg (by omega), if_pos (by omega)]
      rw [if_pos (show isCont (0x80 + c.toNat % 64) = true by
        simp [isCont]; omega)]
      rw [show (0xC0 + c.toNat / 64 - 0xC0) * 64 + (0x80 + c.toNat % 64 - 0x80)
          = c.toNat by omega]
      rw [Char.ofNat_toNat]
      cases haux : utf8DecodeAux fuel rest <;> simp [haux, bind]
    · by_cases h3 : c.toNat < 0x10000
      · rw [show utf8EncodeChar c =
            [0xE0 + c.toNat / 4096, 0x80 + c.toNat / 64 % 64,
              0x80 + c.toNat % 64] by
          unfold utf8EncodeChar
          rw [if_neg h1, if_neg h2, if_pos h3]]
        rw [List.cons_append, List.cons_append, List.cons_append,
          List.nil_append]
        simp only [utf8DecodeAux]
        rw [if_neg (by omega), if_neg (by omega), if_neg (by omega),
          if_pos (by omega)]
        rw [if_pos (show (isCont (0x80 + c.toNat / 64 % 64) &&
            isCont (0x80 + c.toNat % 64)) = true by
          simp [isCont]; omega)]
        rw [show (0xE0 + c.toNat / 4096 - 0xE0) * 4096 +
            (0x80 + c.toNat / 64 % 64 - 0x80) * 64 +
            (0x80 + c.toNat % 64 - 0x80) = c.toNat by omega]
        rw [if_neg (by simp; omega)]
        rw [Char.ofNat_toNat]
        cases haux : utf8DecodeAux fuel rest <;> simp [haux, bind]
      · rw [show utf8EncodeChar c =
            [0xF0 + c.toNat / 262144, 0x80 + c.toNat / 4096 % 64,
              0x80 + c.toNat / 64 % 64, 0x80 + c.toNat % 64] by
          unfold utf8EncodeChar
          rw [if_neg h1, if_neg h2, if_neg h3]]
        rw [List.cons_append, List.cons_append, List.cons_append,
          List.cons_append, List.nil_append]
        simp only [utf8DecodeAux]
        rw [if_neg (by omega), if_neg (by omega), if_neg (by omega),
          if_neg (by omega), if_pos (by omega)]
        rw [if_pos (show (isCont (0x80 + c.toNat / 4096 % 64) &&
            isCont (0x80 + c.toNat / 64 % 64) &&
            isCont (0x80 + c.toNat % 64)) = true by
          simp [isCont]; omega)]
        rw [show (0xF0 + c.toNat / 262144 - 0xF0) * 262144 +
            (0x80 + c.toNat / 4096 % 64 - 0x80) * 4096 +
            (0x80 + c.toNat / 64 % 64 - 0x80) * 64 +
            (0x80 + c.toNat % 64 - 0x80) = c.toNat by omega]
        rw [if_neg (by simp; omega)]
        rw [Char.ofNat_toNat]
        cases haux : utf8DecodeAux fuel rest <;> simp [haux, bind]

theorem utf8DecodeAux_encode (l : List Char) :
    ∀ fuel, l.length ≤ fuel → utf8DecodeAux fuel (utf8Encode l) = some l := by
  induction l with
  | nil =>
      intro fuel _
      cases fuel <;> rfl
  | cons c rest ih =>
      intro fuel hf
      cases fuel with
      | zero => simp at hf
      | succ f =>
          have hr : rest.length ≤ f := by
            simp at hf
            omega
          rw [show utf8Encode (c :: rest) = utf8EncodeChar c ++ utf8Encode rest
            from rfl]
          rw [utf8DecodeAux_encodeChar, ih f hr]
          rfl

/-- UTF-8 encoding round-trips through the decoder. -/
theorem utf8Decode_encode (l : List Char) :
    utf8Decode (utf8Encode l) = some l :=
  utf8DecodeAux_encode l (utf8Encode l).length (length_le_utf8Encode_length l)

/-- Encoded bytes of a non-NUL character are all nonzero. -/
theorem utf8EncodeChar_nonzero (c : Char) (hc : c.toNat ≠ 0) :
    ∀ b ∈ utf8EncodeChar c, b ≠ 0 := by
  intro b hb
  unfold utf8EncodeChar at hb
  by_cases h1 : c.toNat < 0x80
  · rw [if_pos h1] at hb
    simp at hb
    omega
  · by_cases h2 : c.toNat < 0x800
    · rw [if_neg h1, if_pos h2] at hb
      simp at hb
      rcases hb with h | h <;> omega
    · by_cases h3 : c.toNat < 0x10000
      · rw [if_neg h1, if_neg h2, if_pos h3] at hb
        simp at hb
        rcases hb with h | h | h <;> omega
      · rw [if_neg h1, if_neg h2, if_neg h3] at hb
        simp at hb
        rcases hb with h | h | h | h <;> omega

/-! ### Association-list and parsing lemmas -/

theorem lookupA_setA_self {β : Type} (l : List (String × β)) (k : String)
    (v : β) : lookupA (setA l k v) k = some v := by
  induction l with
  | nil => simp [setA, lookupA]
  | cons e rest ih =>
      by_cases he : e.1 = k
      · simp [setA, he, lookupA]
      · simp [setA, he, lookupA, ih]

theorem lookupA_setA_ne {β : Type} (l : List (String × β)) (k k' : String)
    (v : β) (h : k ≠ k') : lookupA (setA l k v) k' = lookupA l k' := by
  induction l with
  | nil => simp [setA, lookupA, h]
  | cons e rest ih =>
      by_cases he : e.1 = k
      · simp [setA, he, lookupA, h]
      · simp [setA, he, lookupA, ih]

theorem setA_setA_same {β : Type} (l : List (String × β)) (k : String)
    (v : β) : setA (setA l k v) k v = setA l k v := by
  induction l with
  | nil => simp [setA]
  | cons e rest ih =>
      by_cases he : e.1 = k
      · simp [setA, he]
      · simp [setA, he, ih]

theorem lookupA_eraseA_self {β : Type} (l : List (String × β)) (k : String) :
    lookupA (eraseA l k) k = none := by
  induction l with
  | nil => simp [eraseA, lookupA]
  | cons e rest ih =>
      by_cases he : e.1 = k
      · simp [eraseA, he, ih]
      · simp [eraseA, he, lookupA, ih]

theorem lookupA_eraseA_ne {β : Type} (l : List (String × β)) (k k' : String)
    (h : k ≠ k') : lookupA (eraseA l k) k' = lookupA l k' := by
  induction l with
  | nil => simp [eraseA, lookupA]
  | cons e rest ih =>
      by_cases he : e.1 = k
      · have hne : e.1 ≠ k' := by rw [he]; exact h
        simp [eraseA, he, lookupA, hne, ih, h]
      · simp [eraseA, he, lookupA, ih]

theorem toNat_ofNat_lt (n : Nat) (h : n < 0xD800) : (Char.ofNat n).toNat = n := by
  have hv : Nat.isValidChar n := Or.inl h
  simp only [Char.ofNat, dif_pos hv, Char.ofNatAux, Char.toNat]
  show (UInt32.ofNatCore n _).toNat = n
  simp [UInt32.ofNatCore, UInt32.toNat]

theorem natDecAux_digits :
    ∀ fuel n, ∀ c ∈ natDecAux fuel n, 48 ≤ c.toNat ∧ c.toNat ≤ 57 := by
  intro fuel
  induction fuel with
  | zero =>
      intro n c hc
      simp [natDecAux] at hc
  | succ f ih =>
      intro n c hc
      unfold natDecAux at hc
      by_cases hn : n < 10
      · rw [if_pos hn] at hc
        simp at hc
        subst hc
        rw [toNat_ofNat_lt (48 + n) (by omega)]
        omega
      · rw [if_neg hn] at hc
        rw [List.mem_append] at hc
        cases hc with
        | inl h => exact ih (n / 10) c h
        | inr h =>
            simp at h
            subst h
            rw [toNat_ofNat_lt (48 + n % 10) (by omega)]
            omega

theorem natDecChars_digits (n : Nat) :
    ∀ c ∈ natDecChars n, 48 ≤ c.toNat ∧ c.toNat ≤ 57 :=
  natDecAux_digits (n + 1) n

theorem natDecChars_ne_nil (n : Nat) : natDecChars n ≠ [] := by
  unfold natDecChars natDecAux
  by_cases hn : n < 10
  · rw [if_pos hn]
    simp
  · rw [if_neg hn]
    simp

theorem utf8Encode_ascii (l : List Char) (h : ∀ c ∈ l, c.toNat < 0x80) :
    utf8Encode l = l.map Char.toNat := by
  induction l with
  | nil => rfl
  | cons c rest ih =>
      have hc : c.toNat < 0x80 := h c (by simp)
      have henc : utf8EncodeChar c = [c.toNat] := by
        unfold utf8EncodeChar
        rw [if_pos hc]
      simp only [utf8Encode, henc, List.map_cons]
      rw [ih (fun x hx => h x (by simp [hx]))]
      rfl

theorem utf8Encode_nonzero (l : List Char) (h : ∀ c ∈ l, c.toNat ≠ 0) :
    ∀ b ∈ utf8Encode l, b ≠ 0 := by
  induction l with
  | nil => simp [utf8Encode]
  | cons c rest ih =>
      intro b hb
      simp only [utf8Encode, List.mem_append] at hb
      cases hb with
      | inl hbc => exact utf8EncodeChar_nonzero c (h c (by simp)) b hbc
      | inr hbr => exact ih (fun x hx => h x (by simp [hx])) b hbr

theorem findIdx?_first_zero (pre data : Bytes) (h : ∀ b ∈ pre, b ≠ 0) :
    List.findIdx? (fun b => b == 0) (pre ++ 0 :: data) = some pre.length := by
  rw [List.findIdx?_append]
  have hnone : List.findIdx? (fun b => b == 0) pre = none := by
    simp [List.findIdx?_eq_none_iff]
    intro x hx
    exact h x hx
  rw [hnone]
  rw [List.findIdx?_cons]
  simp

theorem drop_append_cons (l1 l2 : Bytes) (x : Nat) :
    (l1 ++ x :: l2).drop (l1.length + 1) = l2 := by
  rw [show l1 ++ x :: l2 = (l1 ++ [x]) ++ l2 by simp]
  rw [show l1.length + 1 = (l1 ++ [x]).length by simp]
  exact List.drop_left (l1 ++ [x]) l2

theorem splitWsAux_accum (xs rest cur : List Char)
    (h : ∀ c ∈ xs, isWsChar c = false) :
    splitWsAux (xs ++ rest) cur = splitWsAux rest (xs.reverse ++ cur) := by
  induction xs generalizing cur with
  | nil => simp
  | cons c xs ih =>
      have hc : isWsChar c = false := h c (by simp)
      rw [List.cons_append]
      show splitWsAux (c :: (xs ++ rest)) cur = _
      simp only [splitWsAux]
      rw [if_neg (show ¬(isWsChar c = true) by simp [hc])]
      show splitWsAux (xs ++ rest) (c :: cur) = _
      rw [ih (c :: cur) (fun x hx => h x (List.mem_cons_of_mem c hx))]
      simp

theorem splitWs_two_tokens (a b : List Char) (ha : a ≠ []) (hb : b ≠ [])
    (ha2 : ∀ c ∈ a, isWsChar c = false) (hb2 : ∀ c ∈ b, isWsChar c = false) :
    splitWs (a ++ ' ' :: b) = [a, b] := by
  unfold splitWs
  rw [splitWsAux_accum a (' ' :: b) [] ha2]
  rw [List.append_nil]
  have hstep : splitWsAux (' ' :: b) a.reverse =
      a.reverse.reverse :: splitWsAux b [] := by
    simp only [splitWsAux]
    rw [if_pos (show isWsChar ' ' = true by decide)]
    rw [if_neg (show ¬(a.reverse = []) by simp [ha])]
  rw [hstep, List.reverse_reverse]
  rw [show splitWsAux b [] = splitWsAux (b ++ []) [] by rw [List.append_nil]]
  rw [splitWsAux_accum b [] [] hb2]
  simp only [splitWsAux, List.append_nil]
  rw [if_neg (show ¬(b.reverse = []) by simp [hb])]
  rw [List.reverse_reverse]

theorem readStored_ok_iff (repo : Repo) (h : String) (d : Bytes) :
    readStored repo h = .ok d ↔ lookupA repo.objects h = some d := by
  unfold readStored
  cases hl : lookupA repo.objects h <;> simp

theorem findNulIdx_ok_iff (od : Bytes) (i : Nat) :
    findNulIdx od = .ok i ↔ List.findIdx? (fun b => b == 0) od = some i := by
  unfold findNulIdx
  cases hf : List.findIdx? (fun b => b == 0) od <;> simp

theorem decodeHeaderChars_ok_iff (b : Bytes) (cs : List Char) :
    decodeHeaderChars b = .ok cs ↔ utf8Decode b = some cs := by
  unfold decodeHeaderChars
  cases hd : utf8Decode b <;> simp

theorem headerTokensOk_ok_iff (cs : List Char) :
    headerTokensOk cs = .ok () ↔ 2 ≤ (splitWs cs).length := by
  unfold headerTokensOk
  cases hs : splitWs cs with
  | nil => simp
  | cons t1 rest =>
      cases rest with
      | nil => simp
      | cons t2 rest2 => simp

/-! ### C3: content-addressed store idempotence and round trip -/

theorem asStr_facts (t : ObjectType) :
    t.asStr.data ≠ [] ∧
      ∀ c ∈ t.asStr.data, c.toNat ≠ 0 ∧ c.toNat < 0x80 ∧ isWsChar c = false := by
  cases t <;> exact ⟨by decide, by decide⟩

/-- Reading a stored object whose bytes are a well-formed header followed by
a payload returns exactly the payload. -/
theorem getObject_stored (repo : Repo) (oid : String) (data : Bytes)
    (t : ObjectType) (hoid : isHashB oid = true)
    (hl : lookupA repo.objects oid =
      some (utf8Encode (objectHeaderChars t data.length) ++ data)) :
    getObject repo oid = .ok data := by
  have hpre : ∀ c ∈ t.asStr.data ++ ' ' :: natDecChars data.length,
      c.toNat ≠ 0 ∧ c.toNat < 0x80 := by
    intro c hc
    rw [List.mem_append] at hc
    cases hc with
    | inl h => exact ⟨((asStr_facts t).2 c h).1, ((asStr_facts t).2 c h).2.1⟩
    | inr h =>
        simp at h
        cases h with
        | inl h => subst h; exact ⟨by decide, by decide⟩
        | inr h =>
            have := natDecChars_digits data.length c h
            exact ⟨by omega, by omega⟩
  have hheader : objectHeaderChars t data.length =
      (t.asStr.data ++ ' ' :: natDecChars data.length) ++ [Char.ofNat 0] := by
    simp [objectHeaderChars]
  have hnul : utf8EncodeChar (Char.ofNat 0) = [0] := by
    have h0 : (Char.ofNat 0).toNat = 0 := toNat_ofNat_lt 0 (by omega)
    unfold utf8EncodeChar
    rw [h0]
    simp
  have hobj : utf8Encode (objectHeaderChars t data.length) ++ data =
      utf8Encode (t.asStr.data ++ ' ' :: natDecChars data.length) ++
        0 :: data := by
    rw [hheader, utf8Encode_append]
    simp [utf8Encode, hnul]
  set pre := t.asStr.data ++ ' ' :: natDecChars data.length with hpredef
  have hprenz : ∀ b ∈ utf8Encode pre, b ≠ 0 :=
    utf8Encode_nonzero pre (fun c hc => (hpre c hc).1)
  unfold getObject
  rw [getOidHash_of_isHash _ _ hoid]
  rw [ebind_ok]
  rw [(readStored_ok_iff _ _ _).mpr hl]
  rw [ebind_ok]
  rw [hobj]
  rw [(findNulIdx_ok_iff _ _).mpr (findIdx?_first_zero _ data hprenz)]
  rw [ebind_ok]
  rw [show (utf8Encode pre ++ 0 :: data).take (utf8Encode pre).length =
      utf8Encode pre from List.take_left _ _]
  rw [(decodeHeaderChars_ok_iff _ _).mpr (utf8Decode_encode pre)]
  rw [ebind_ok]
  rw [(headerTokensOk_ok_iff _).mpr (by
    rw [hpredef]
    rw [splitWs_two_tokens t.asStr.data (natDecChars data.length)
      (asStr_facts t).1 (natDecChars_ne_nil data.length)
      (fun c hc => ((asStr_facts t).2 c hc).2.2)
      (fun c hc => by
        have := natDecChars_digits data.length c hc
        unfold isWsChar
        have h32 : c ≠ ' ' := fun he => by
          subst he; exact absurd this (by decide)
        have h9 : c ≠ '\t' := fun he => by
          subst he; exact absurd this (by decide)
        have h10 : c ≠ '\n' := fun he => by
          subst he; exact absurd this (by decide)
        have h13 : c ≠ '\x0d' := fun he => by
          subst he; exact absurd this (by decide)
        have h11 : c ≠ '\x0b' := fun he => by
          subst he; exact absurd this (by decide)
        have h12 : c ≠ '\x0c' := fun he => by
          subst he; exact absurd this (by decide)
        simp [h32, h9, h10, h13, h11, h12])]
    simp)]
  rw [ebind_ok, epure]
  rw [drop_append_cons]

/-- C3: `hash_object` called twice on the same bytes and kind returns the same
OID and leaves the object store exactly as after the first call (one stored
object at that OID), and `get_object` on the returned OID reproduces the input
bytes exactly — for every kind and every byte sequence, including empty and
NUL-containing ones. -/
theorem C3_hash_object_roundtrip (hashFn : Bytes → String)
    (hh : ∀ b, isHashB (hashFn b) = true) (repo : Repo) (data : Bytes)
    (t : ObjectType) :
    (hashObject hashFn (hashObject hashFn repo data t).2 data t).1 =
      (hashObject hashFn repo data t).1 ∧
    (hashObject hashFn (hashObject hashFn repo data t).2 data t).2.objects =
      (hashObject hashFn repo data t).2.objects ∧
    getObject (hashObject hashFn repo data t).2
      (hashObject hashFn repo data t).1 = .ok data := by
  refine ⟨rfl, ?_, ?_⟩
  · simp [hashObject, hashObjectO, setA_setA_same]
  · exact getObject_stored _ _ data t (hh _)
      (by
        simp only [hashObject, hashObjectO]
        exact lookupA_setA_self _ _ _)

/-! ### C10: `get_object` success and failure conditions -/

/-- C10: `get_object` succeeds exactly when the OID resolves, the object is
stored, the stored bytes contain a NUL, the pre-NUL bytes are valid UTF-8 and
split into at least two whitespace-separated tokens; on success it returns
everything after the first NUL (the kind token's value and the declared
length are never validated). -/
theorem C10_get_object_spec (repo : Repo) (h : String) (v : Bytes) :
    getObject repo h = .ok v ↔
      ∃ oid objectData headerEnd headerChars,
        getOidHash repo h = .ok oid ∧
        lookupA repo.objects oid = some objectData ∧
        List.findIdx? (fun b => b == 0) objectData = some headerEnd ∧
        utf8Decode (objectData.take headerEnd) = some headerChars ∧
        2 ≤ (splitWs headerChars).length ∧
        v = objectData.drop (headerEnd + 1) := by
  constructor
  · intro hc
    unfold getObject at hc
    cases hoid : getOidHash repo h with
    | error e =>
        rw [hoid] at hc
        simp only [ebind_err] at hc
        exact Except.noConfusion hc
    | ok oid =>
        rw [hoid] at hc
        simp only [ebind_ok] at hc
        cases hread : readStored repo oid with
        | error e =>
            rw [hread] at hc
            simp only [ebind_err] at hc
            exact Except.noConfusion hc
        | ok od =>
            rw [hread] at hc
            simp only [ebind_ok] at hc
            cases hfind : findNulIdx od with
            | error e =>
                rw [hfind] at hc
                simp only [ebind_err] at hc
                exact Except.noConfusion hc
            | ok he =>
                rw [hfind] at hc
                simp only [ebind_ok] at hc
                cases hdec : decodeHeaderChars (od.take he) with
                | error e =>
                    rw [hdec] at hc
                    simp only [ebind_err] at hc
                    exact Except.noConfusion hc
                | ok hcs =>
                    rw [hdec] at hc
                    simp only [ebind_ok] at hc
                    cases htok : headerTokensOk hcs with
                    | error e =>
                        rw [htok] at hc
                        simp only [ebind_err] at hc
                        exact Except.noConfusion hc
                    | ok u =>
                        rw [htok] at hc
                        simp only [ebind_ok, epure] at hc
                        refine ⟨oid, od, he, hcs, rfl,
                          (readStored_ok_iff repo oid od).mp hread,
                          (findNulIdx_ok_iff od he).mp hfind,
                          (decodeHeaderChars_ok_iff _ hcs).mp hdec,
                          ?_, (Except.ok.inj hc).symm⟩
                        cases u
                        exact (headerTokensOk_ok_iff hcs).mp htok
  · rintro ⟨oid, od, he, hcs, h1, h2, h3, h4, h5, h6⟩
    unfold getObject
    rw [h1]
    simp only [ebind_ok]
    rw [(readStored_ok_iff repo oid od).mpr h2]
    simp only [ebind_ok]
    rw [(findNulIdx_ok_iff od he).mpr h3]
    simp only [ebind_ok]
    rw [(decodeHeaderChars_ok_iff _ hcs).mpr h4]
    simp only [ebind_ok]
    rw [(headerTokensOk_ok_iff hcs).mpr h5]
    simp only [ebind_ok, epure]
    rw [h6]

/-! ### C7: `iter_commits_and_parents` -/

theorem popQ_none_iff (lifo : Bool) (q : List String) :
    popQ lifo q = none ↔ q = [] := by
  constructor
  · intro h
    cases q with
    | nil => rfl
    | cons a as =>
        unfold popQ at h
        by_cases hl : lifo
        · rw [if_pos hl] at h
          rw [List.getLast?_eq_getLast (a :: as) (by simp)] at h
          cases h
        · rw [if_neg hl] at h
          cases h
  · intro h
    subst h
    unfold popQ
    by_cases hl : lifo <;> simp [hl]

theorem popQ_shape (lifo : Bool) (q : List String) (cur : String)
    (rest : List String) (h : popQ lifo q = some (cur, rest)) :
    q = cur :: rest ∨ q = rest ++ [cur] := by
  unfold popQ at h
  by_cases hl : lifo
  · rw [if_pos hl] at h
    cases hq : q.getLast? with
    | none => rw [hq] at h; cases h
    | some x =>
        rw [hq] at h
        simp at h
        obtain ⟨h1, h2⟩ := h
        right
        rw [← h1, ← h2]
        exact (List.dropLast_append_getLast? x hq).symm
  · rw [if_neg hl] at h
    cases q with
    | nil => cases h
    | cons a as =>
        simp at h
        obtain ⟨h1, h2⟩ := h
        left
        rw [h1, h2]

theorem popQ_mem_split (lifo : Bool) (q : List String) (cur : String)
    (rest : List String) (h : popQ lifo q = some (cur, rest)) :
    cur ∈ q ∧ (∀ y ∈ rest, y ∈ q) ∧ (∀ y ∈ q, y = cur ∨ y ∈ rest) := by
  rcases popQ_shape lifo q cur rest h with hq | hq <;> subst hq
  · refine ⟨by simp, fun y hy => by simp [hy], fun y hy => ?_⟩
    simp at hy
    exact hy
  · refine ⟨by simp, fun y hy => by simp [hy], fun y hy => ?_⟩
    simp at hy
    tauto

theorem commitWalk_acc_sub (repo : Repo) (lifo : Bool) :
    ∀ fuel acc queue res, commitWalk repo lifo fuel acc queue = .ok res →
      ∀ x ∈ acc, x ∈ res := by
  intro fuel
  induction fuel with
  | zero =>
      intro acc queue res h
      cases h
  | succ f ih =>
      intro acc queue res h x hx
      simp only [commitWalk] at h
      cases hpop : popQ lifo queue with
      | none =>
          rw [hpop] at h
          simp at h
          subst h
          exact hx
      | some p =>
          obtain ⟨cur, rest⟩ := p
          rw [hpop] at h
          simp only [] at h
          by_cases hc : acc.contains cur
          · rw [if_pos hc] at h
            exact ih acc rest res h x hx
          · rw [if_neg hc] at h
            cases hgc : getCommit repo cur with
            | error e =>
                rw [hgc] at h
                simp only [ebind_err] at h
                cases h
            | ok c =>
                rw [hgc] at h
                simp only [ebind_ok] at h
                exact ih (acc ++ [cur]) (rest ++ c.parents) res h x
                  (by simp [hx])

theorem commitWalk_queue_sub (repo : Repo) (lifo : Bool) :
    ∀ fuel acc queue res, commitWalk repo lifo fuel acc queue = .ok res →
      ∀ x ∈ queue, x ∈ res := by
  intro fuel
  induction fuel with
  | zero =>
      intro acc queue res h
      cases h
  | succ f ih =>
      intro acc queue res h x hx
      simp only [commitWalk] at h
      cases hpop : popQ lifo queue with
      | none =>
          rw [(popQ_none_iff lifo queue).mp hpop] at hx
          cases hx
      | some p =>
          obtain ⟨cur, rest⟩ := p
          rw [hpop] at h
          simp only [] at h
          obtain ⟨hcq, hrq, hsplit⟩ := popQ_mem_split lifo queue cur rest hpop
          by_cases hc : acc.contains cur
          · rcases hsplit x hx with hxc | hxr
            · subst hxc
              rw [if_pos hc] at h
              exact commitWalk_acc_sub repo lifo f acc rest res h x
                (List.elem_iff.mp hc)
            · rw [if_pos hc] at h
              exact ih acc rest res h x hxr
          · rw [if_neg hc] at h
            cases hgc : getCommit repo cur with
            | error e =>
                rw [hgc] at h
                simp only [ebind_err] at h
                cases h
            | ok c =>
                rw [hgc] at h
                simp only [ebind_ok] at h
                rcases hsplit x hx with hxc | hxr
                · subst hxc
                  exact commitWalk_acc_sub repo lifo f (acc ++ [x])
                    (rest ++ c.parents) res h x (by simp)
                · exact ih (acc ++ [cur]) (rest ++ c.parents) res h x
                    (by simp [hxr])

theorem commitWalk_nodup (repo : Repo) (lifo : Bool) :
    ∀ fuel acc queue res, commitWalk repo lifo fuel acc queue = .ok res →
      acc.Nodup → res.Nodup := by
  intro fuel
  induction fuel with
  | zero =>
      intro acc queue res h
      cases h
  | succ f ih =>
      intro acc queue res h hnd
      simp only [commitWalk] at h
      cases hpop : popQ lifo queue with
      | none =>
          rw [hpop] at h
          simp at h
          subst h
          exact hnd
      | some p =>
          obtain ⟨cur, rest⟩ := p
          rw [hpop] at h
          simp only [] at h
          by_cases hc : acc.contains cur
          · rw [if_pos hc] at h
            exact ih acc rest res h hnd
          · rw [if_neg hc] at h
            cases hgc : getCommit repo cur with
            | error e =>
                rw [hgc] at h
                simp only [ebind_err] at h
                cases h
            | ok c =>
                rw [hgc] at h
                simp only [ebind_ok] at h
                refine ih (acc ++ [cur]) (rest ++ c.parents) res h ?_
                have hnc : cur ∉ acc := fun hmem =>
                  hc (List.elem_iff.mpr hmem)
                simp [List.nodup_append, hnd, hnc]

theorem commitWalk_closed (repo : Repo) (lifo : Bool) :
    ∀ fuel acc queue res, commitWalk repo lifo fuel acc queue = .ok res →
      (∀ a ∈ acc, ∀ c, getCommit repo a = .ok c →
        ∀ p ∈ c.parents, p ∈ acc ∨ p ∈ queue) →
      ∀ x ∈ res, ∀ c, getCommit repo x = .ok c → ∀ p ∈ c.parents, p ∈ res := by
  intro fuel
  induction fuel with
  | zero =>
      intro acc queue res h
      cases h
  | succ f ih =>
      intro acc queue res h hinv
      simp only [commitWalk] at h
      cases hpop : popQ lifo queue with
      | none =>
          rw [hpop] at h
          simp at h
          subst h
          intro x hx c hc p hp
          rcases hinv x hx c hc p hp with hin | hin
          · exact hin
          · rw [(popQ_none_iff lifo queue).mp hpop] at hin
            cases hin
      | some pr =>
          obtain ⟨cur, rest⟩ := pr
          rw [hpop] at h
          simp only [] at h
          obtain ⟨hcq, hrq, hsplit⟩ := popQ_mem_split lifo queue cur rest hpop
          by_cases hc : acc.contains cur
          · rw [if_pos hc] at h
            refine ih acc rest res h ?_
            intro a ha c hgc p hp
            rcases hinv a ha c hgc p hp with hin | hin
            · exact Or.inl hin
            · rcases hsplit p hin with hpc | hpr
              · subst hpc
                exact Or.inl (List.elem_iff.mp hc)
              · exact Or.inr hpr
          · rw [if_neg hc] at h
            cases hgc : getCommit repo cur with
            | error e =>
                rw [hgc] at h
                simp only [ebind_err] at h
                cases h
            | ok c =>
                rw [hgc] at h
                simp only [ebind_ok] at h
                refine ih (acc ++ [cur]) (rest ++ c.parents) res h ?_
                intro a ha c2 hgc2 p hp
                rw [List.mem_append] at ha
                rcases ha with ha | ha
                · rcases hinv a ha c2 hgc2 p hp with hin | hin
                  · exact Or.inl (by simp [hin])
                  · rcases hsplit p hin with hpc | hpr
                    · subst hpc
                      exact Or.inl (by simp)
                    · exact Or.inr (by simp [hpr])
                · simp at ha
                  subst ha
                  rw [hgc] at hgc2
                  cases hgc2
                  exact Or.inr (by simp [hp])

theorem commitWalk_sound (repo : Repo) (lifo : Bool) (P : String → Prop)
    (hclosed : ∀ y c p, P y → getCommit repo y = .ok c → p ∈ c.parents → P p) :
    ∀ fuel acc queue res, commitWalk repo lifo fuel acc queue = .ok res →
      (∀ x ∈ acc, P x) → (∀ x ∈ queue, P x) → ∀ x ∈ res, P x := by
  intro fuel
  induction fuel with
  | zero =>
      intro acc queue res h
      cases h
  | succ f ih =>
      intro acc queue res h hacc hqueue
      simp only [commitWalk] at h
      cases hpop : popQ lifo queue with
      | none =>
          rw [hpop] at h
          simp at h
          subst h
          exact hacc
      | some pr =>
          obtain ⟨cur, rest⟩ := pr
          rw [hpop] at h
          simp only [] at h
          obtain ⟨hcq, hrq, hsplit⟩ := popQ_mem_split lifo queue cur rest hpop
          by_cases hc : acc.contains cur
          · rw [if_pos hc] at h
            exact ih acc rest res h hacc (fun x hx => hqueue x (hrq x hx))
          · rw [if_neg hc] at h
            cases hgc : getCommit repo cur with
            | error e =>
                rw [hgc] at h
                simp only [ebind_err] at h
                cases h
            | ok c =>
                rw [hgc] at h
                simp only [ebind_ok] at h
                refine ih (acc ++ [cur]) (rest ++ c.parents) res h ?_ ?_
                · intro x hx
                  rw [List.mem_append] at hx
                  rcases hx with hx | hx
                  · exact hacc x hx
                  · simp at hx
                    subst hx
                    exact hqueue x hcq
                · intro x hx
                  rw [List.mem_append] at hx
                  rcases hx with hx | hx
                  · exact hqueue x (hrq x hx)
                  · exact hclosed cur c x (hqueue cur hcq) hgc hx

/-- C7 (amended): `iter_commits_and_parents` emits each commit exactly once,
and the emitted set is exactly the union of the ancestor sets of the starting
OIDs — but the traversal order is last-in-first-out (depth-first), because the
worklist is popped from the back, not breadth-first as the claim states. -/
theorem C7_iter_commits_amended (fuel : Nat) (repo : Repo)
    (oids res : List String)
    (h : iterCommitsAndParents fuel repo oids = .ok res) :
    res.Nodup ∧ ∀ x, x ∈ res ↔ ∃ s ∈ oids, ReachObj repo s x := by
  unfold iterCommitsAndParents at h
  constructor
  · exact commitWalk_nodup repo true fuel [] oids res h (by simp)
  · intro x
    constructor
    · intro hx
      refine commitWalk_sound repo true
        (fun z => ∃ s ∈ oids, ReachObj repo s z) ?_ fuel [] oids res h
        (by simp) ?_ x hx
      · rintro y c p ⟨s, hs, hr⟩ hgc hp
        exact ⟨s, hs, .step hr c hgc hp⟩
      · intro z hz
        exact ⟨z, hz, .refl z⟩
    · rintro ⟨s, hs, hr⟩
      induction hr with
      | refl => exact commitWalk_queue_sub repo true fuel [] oids res h s hs
      | step hxy c hgc hp ihr =>
          exact commitWalk_closed repo true fuel [] oids res h
            (by simp) _ ihr _ hgc _ hp

set_option maxRecDepth 100000 in
/-- Witness for the amended C7 on the commit diamond. -/
theorem C7_iter_commits_amended_witness :
    ([mkOid 'c', mkOid 'b', mkOid 'e', mkOid 'a'] : List String).Nodup :=
  (C7_iter_commits_amended 20 diamondRepo [mkOid 'c']
    [mkOid 'c', mkOid 'b', mkOid 'e', mkOid 'a'] (by rfl)).1

set_option maxRecDepth 100000 in
/-- Counterexample to C7 as stated: on the commit diamond (`c` with parents
`a` then `b`, both children of `e`), `iter_commits_and_parents` emits
`[c, b, e, a]` while the breadth-first enumeration the claim describes emits
`[c, a, b, e]`. -/
theorem C7_iter_commits_counterexample :
    iterCommitsAndParents 20 diamondRepo [mkOid 'c'] =
      .ok [mkOid 'c', mkOid 'b', mkOid 'e', mkOid 'a'] ∧
    specBfsEnumeration 20 diamondRepo [mkOid 'c'] =
      .ok [mkOid 'c', mkOid 'a', mkOid 'b', mkOid 'e'] ∧
    ([mkOid 'c', mkOid 'b', mkOid 'e', mkOid 'a'] : List String) ≠
      [mkOid 'c', mkOid 'a', mkOid 'b', mkOid 'e'] :=
  ⟨by rfl, by rfl, by decide⟩

set_option maxRecDepth 100000 in
/-- Witness for C3: storing the NUL-containing bytes `[0, 255]` as a blob and
reading them back. -/
theorem C3_hash_object_roundtrip_witness :
    getObject (hashObject constHash ⟨[], [], []⟩ [0, 255] .blob).2
      (hashObject constHash ⟨[], [], []⟩ [0, 255] .blob).1 = .ok [0, 255] :=
  (C3_hash_object_roundtrip constHash
    (fun _ => (by decide : isHashB (mkOid 'a') = true)) ⟨[], [], []⟩
    [0, 255] .blob).2.2

/-! ### C4: `create_tree` entry ordering -/

theorem ebind_ok_iff {α β : Type} (E : Except String α)
    (g : α → Except String β) (y : β) :
    (bind E g : Except String β) = .ok y ↔ ∃ p, E = .ok p ∧ g p = .ok y := by
  cases E <;> simp [bind, Except.bind]

theorem bytesLe_total : ∀ a b : Bytes, (bytesLe a b || bytesLe b a) = true := by
  intro a
  induction a with
  | nil => intro b; simp [bytesLe]
  | cons x xs ih =>
      intro b
      cases b with
      | nil => simp [bytesLe]
      | cons y ys =>
          simp only [bytesLe]
          by_cases hxy : x < y
          · simp [hxy]
          · by_cases hyx : y < x
            · simp [hxy, hyx]
            · simp [hxy, hyx]
              simpa using ih ys

theorem bytesLe_trans : ∀ a b c : Bytes, bytesLe a b = true →
    bytesLe b c = true → bytesLe a c = true := by
  intro a
  induction a with
  | nil => intro b c _ _; simp [bytesLe]
  | cons x xs ih =>
      intro b c hab hbc
      cases b with
      | nil => simp [bytesLe] at hab
      | cons y ys =>
          cases c with
          | nil => simp [bytesLe] at hbc
          | cons z zs =>
              simp only [bytesLe] at hab hbc ⊢
              by_cases hyz : y < z
              · rw [if_pos hyz] at hbc
                by_cases hxy : x < y
                · rw [if_pos (show x < z by omega)]
                · rw [if_neg hxy] at hab
                  by_cases hyx : y < x
                  · rw [if_pos hyx] at hab
                    cases hab
                  · rw [if_pos (show x < z by omega)]
              · rw [if_neg hyz] at hbc
                by_cases hzy : z < y
                · rw [if_pos hzy] at hbc
                  cases hbc
                · rw [if_neg hzy] at hbc
                  by_cases hxy : x < y
                  · rw [if_pos (show x < z by omega)]
                  · rw [if_neg hxy] at hab
                    by_cases hyx : y < x
                    · rw [if_pos hyx] at hab
                      cases hab
                    · rw [if_neg hyx] at hab
                      rw [if_neg (show ¬ x < z by omega),
                        if_neg (show ¬ z < x by omega)]
                      exact ih ys zs hab hbc

/-! Generic lemmas about the stable insertion sort. -/

theorem mem_insertLe {α : Type} (le : α → α → Bool) (x a : α) :
    ∀ l : List α, a ∈ insertLe le x l ↔ a = x ∨ a ∈ l := by
  intro l
  induction l with
  | nil => simp [insertLe]
  | cons y ys ih =>
      unfold insertLe
      by_cases hle : le x y
      · simp [hle]
      · simp [hle, ih]
        tauto

theorem insertLe_perm {α : Type} (le : α → α → Bool) (x : α) :
    ∀ l : List α, (insertLe le x l).Perm (x :: l) := by
  intro l
  induction l with
  | nil => simp [insertLe]
  | cons y ys ih =>
      unfold insertLe
      by_cases hle : le x y
      · simp [hle]
      · rw [if_neg hle]
        exact (List.Perm.cons y ih).trans (List.Perm.swap x y ys)

theorem insertionSort_perm {α : Type} (le : α → α → Bool) :
    ∀ l : List α, (insertionSort le l).Perm l := by
  intro l
  induction l with
  | nil => simp [insertionSort]
  | cons x xs ih =>
      unfold insertionSort
      exact (insertLe_perm le x (insertionSort le xs)).trans
        (List.Perm.cons x ih)

theorem insertLe_pairwise {α : Type} (le : α → α → Bool)
    (htotal : ∀ a b, (le a b || le b a) = true)
    (htrans : ∀ a b c, le a b = true → le b c = true → le a c = true)
    (x : α) : ∀ l : List α, List.Pairwise (fun a b => le a b = true) l →
      List.Pairwise (fun a b => le a b = true) (insertLe le x l) := by
  intro l
  induction l with
  | nil =>
      intro _
      simp [insertLe]
  | cons y ys ih =>
      intro hp
      rw [List.pairwise_cons] at hp
      obtain ⟨hy, hys⟩ := hp
      unfold insertLe
      by_cases hle : le x y
      · rw [if_pos hle]
        rw [List.pairwise_cons]
        refine ⟨?_, List.pairwise_cons.mpr ⟨hy, hys⟩⟩
        intro b hb
        rcases List.mem_cons.mp hb with hb | hb
        · rw [hb]
          exact hle
        · exact htrans x y b hle (hy b hb)
      · rw [if_neg hle]
        have hyx : le y x = true := by
          have := htotal x y
          rcases Bool.or_eq_true _ _ |>.mp this with h | h
          · exact absurd h hle
          · exact h
        rw [List.pairwise_cons]
        refine ⟨?_, ih hys⟩
        intro b hb
        rcases (mem_insertLe le x b ys).mp hb with hb | hb
        · rw [hb]
          exact hyx
        · exact hy b hb

theorem insertionSort_pairwise {α : Type} (le : α → α → Bool)
    (htotal : ∀ a b, (le a b || le b a) = true)
    (htrans : ∀ a b c, le a b = true → le b c = true → le a c = true) :
    ∀ l : List α, List.Pairwise (fun a b => le a b = true)
      (insertionSort le l) := by
  intro l
  induction l with
  | nil => simp [insertionSort]
  | cons x xs ih =>
      unfold insertionSort
      exact insertLe_pairwise le htotal htrans x (insertionSort le xs) ih

/-- C4 (amended): the tree object stored by `create_tree` for a directory is
the concatenation of the sorted version of exactly the serialised entry
records its listing produces (`createTreeEntries`, the source's record loop):
the stored payload is `(insertionSort bytesLe entries).flatten`, where the
sorted list is a permutation of those records and is pairwise in `bytesLe`
order on whole records (mode bytes first, then the name).  Because the mode
prefix participates, every file record (`100644 …`) sorts before every
subdirectory record (`40000 …`) regardless of names; only within one mode
does the order coincide with byte-wise name order. -/
theorem C4_create_tree_amended (hashFn : Bytes → String)
    (ignore : List String → Bool) (fuel : Nat) (pathPfx : List String)
    (listing : List (String × FsNode)) (objects : List (String × Bytes))
    (oid : String) (objects2 : List (String × Bytes))
    (h : createTreeAux hashFn ignore (fuel + 1) pathPfx listing objects =
      .ok (oid, objects2)) :
    ∃ entries objects1,
      createTreeEntries hashFn ignore fuel pathPfx listing objects =
        .ok (entries, objects1) ∧
      oid = hashFn (utf8Encode (objectHeaderChars .tree
          ((insertionSort bytesLe entries).flatten).length) ++
        (insertionSort bytesLe entries).flatten) ∧
      lookupA objects2 oid =
        some (utf8Encode (objectHeaderChars .tree
            ((insertionSort bytesLe entries).flatten).length) ++
          (insertionSort bytesLe entries).flatten) ∧
      List.Pairwise (fun a b => bytesLe a b = true)
        (insertionSort bytesLe entries) ∧
      (insertionSort bytesLe entries).Perm entries := by
  unfold createTreeAux at h
  rw [ebind_ok_iff] at h
  obtain ⟨⟨entries, objects1⟩, hfold, hrest⟩ := h
  simp only [epure] at hrest
  have hpair := Except.ok.inj hrest
  have h1 : oid = (hashObjectO hashFn objects1
      ((insertionSort bytesLe entries).flatten) .tree).1 := by
    rw [hpair]
  have h2 : objects2 = (hashObjectO hashFn objects1
      ((insertionSort bytesLe entries).flatten) .tree).2 := by
    rw [hpair]
  refine ⟨entries, objects1, hfold, ?_, ?_,
    insertionSort_pairwise bytesLe bytesLe_total bytesLe_trans entries,
    insertionSort_perm bytesLe entries⟩
  · rw [h1]
    rfl
  · rw [h1, h2]
    unfold hashObjectO
    exact lookupA_setA_self _ _ _

set_option maxRecDepth 400000 in
/-- Witness for the amended C4 on a directory holding the file `b` and the
subdirectory `a`: the record loop produces the file record then the directory
record, the sort keeps the file record (`100644 b …`) first because its mode
byte-sorts below `40000`, and the stored tree payload is exactly that sorted
concatenation. -/
theorem C4_create_tree_amended_witness :
    (∃ entries objects1,
      createTreeEntries constHash noIgnore 1 []
          [("b", FsNode.file []), ("a", FsNode.dir [])] [] =
        .ok (entries, objects1) ∧
      mkOid 'a' = constHash (utf8Encode (objectHeaderChars .tree
          ((insertionSort bytesLe entries).flatten).length) ++
        (insertionSort bytesLe entries).flatten) ∧
      lookupA [(mkOid 'a', mkObjS "tree"
          (treeEntryRecord "100644" "b" (rawOf 'a') ++
            treeEntryRecord "40000" "a" (rawOf 'a')))] (mkOid 'a') =
        some (utf8Encode (objectHeaderChars .tree
            ((insertionSort bytesLe entries).flatten).length) ++
          (insertionSort bytesLe entries).flatten) ∧
      List.Pairwise (fun a b => bytesLe a b = true)
        (insertionSort bytesLe entries) ∧
      (insertionSort bytesLe entries).Perm entries) ∧
    createTreeEntries constHash noIgnore 1 []
        [("b", FsNode.file []), ("a", FsNode.dir [])] [] =
      .ok ([treeEntryRecord "100644" "b" (rawOf 'a'),
            treeEntryRecord "40000" "a" (rawOf 'a')],
           [(mkOid 'a', mkObjS "tree" [])]) ∧
    insertionSort bytesLe
        [treeEntryRecord "100644" "b" (rawOf 'a'),
         treeEntryRecord "40000" "a" (rawOf 'a')] =
      [treeEntryRecord "100644" "b" (rawOf 'a'),
       treeEntryRecord "40000" "a" (rawOf 'a')] :=
  ⟨C4_create_tree_amended constHash noIgnore 1 []
    [("b", FsNode.file []), ("a", FsNode.dir [])] [] (mkOid 'a')
    [(mkOid 'a', mkObjS "tree" (treeEntryRecord "100644" "b" (rawOf 'a') ++
      treeEntryRecord "40000" "a" (rawOf 'a')))] (by rfl), by rfl, by rfl⟩

set_option maxRecDepth 400000 in
/-- Counterexample to C4 as stated: a directory holding the file `b` and the
subdirectory `a` serialises with the file record first (its mode `100644`
byte-sorts before `40000`), so consecutive entry names are `b` then `a` —
not name-sorted. -/
theorem C4_create_tree_counterexample :
    createTreeAux constHash noIgnore 2 []
        [("b", FsNode.file []), ("a", FsNode.dir [])] [] =
      .ok (mkOid 'a',
        [(mkOid 'a', mkObjS "tree" (treeEntryRecord "100644" "b" (rawOf 'a') ++
          treeEntryRecord "40000" "a" (rawOf 'a')))]) ∧
    treeRecords (treeEntryRecord "100644" "b" (rawOf 'a') ++
        treeEntryRecord "40000" "a" (rawOf 'a')) =
      .ok [("100644", "b", mkOid 'a'), ("40000", "a", mkOid 'a')] ∧
    charsLe "b".data "a".data = false :=
  ⟨by rfl, by rfl, by decide⟩

/-! ### C9: `reset` with a symbolic HEAD -/

/-- A successful dereferencing resolution ends at a ref file whose trimmed
content is not symbolic; the returned value is that content. -/
theorem getRefInternal_deref_resolved (refs : List (String × String)) :
    ∀ fuel refName n rv,
      getRefInternal refs fuel refName true = .ok (n, rv) →
      ∃ content, lookupA refs n = some content ∧
        rv = ⟨strTrim content, false⟩ ∧
        strStartsWith (strTrim content) "ref:" = false := by
  intro fuel
  induction fuel with
  | zero =>
      intro refName n rv h
      cases h
  | succ f ih =>
      intro refName n rv h
      unfold getRefInternal at h
      cases hl : lookupA refs refName with
      | none =>
          rw [hl] at h
          cases h
      | some content =>
          rw [hl] at h
          simp only [] at h
          by_cases hsym : strStartsWith (strTrim content) "ref:" = true
          · rw [if_pos (by simp [hsym])] at h
            exact ih _ n rv h
          · rw [if_neg (by simp [hsym])] at h
            have hp := Except.ok.inj h
            injection hp with hn hrv
            subst hn
            subst hrv
            refine ⟨content, hl, ?_, Bool.not_eq_true _ ▸ hsym⟩
            rw [show strStartsWith (strTrim content) "ref:" = false from
              Bool.not_eq_true _ ▸ hsym]

/-- C9: when HEAD is symbolic and its chain resolves to a branch ref file,
`reset` to an existing commit writes the commit OID into that branch file
(through the chain), leaves the HEAD file unchanged, and materialises the
commit's tree; HEAD therefore remains attached to the same branch. -/
theorem C9_reset_symbolic_head (ignore : List String → Bool) (fuel : Nat)
    (repo : Repo) (commitHash : String) (c : CommitObj) (wt : Worktree)
    (headContent : String) (branchPath : String) (rv : RefValue)
    (hHead : lookupA repo.refs "HEAD" = some headContent)
    (hSym : strStartsWith (strTrim headContent) "ref:" = true)
    (hres : getRefInternal repo.refs (repo.refs.length + 1) "HEAD" true =
      .ok (branchPath, rv))
    (hCommit : getCommit repo commitHash = .ok c)
    (hRead : readTree ignore fuel repo c.tree = .ok wt) :
    reset ignore fuel repo commitHash = .ok
      { objects := repo.objects,
        refs := setA repo.refs branchPath commitHash, worktree := wt } ∧
    branchPath ≠ "HEAD" ∧
    lookupA (setA repo.refs branchPath commitHash) "HEAD" =
      some headContent ∧
    lookupA (setA repo.refs branchPath commitHash) branchPath =
      some commitHash := by
  obtain ⟨content2, hl2, hrv2, hns2⟩ :=
    getRefInternal_deref_resolved repo.refs (repo.refs.length + 1) "HEAD"
      branchPath rv hres
  have hne : branchPath ≠ "HEAD" := by
    intro he
    rw [he] at hl2
    rw [hHead] at hl2
    have : content2 = headContent := (Option.some.inj hl2).symm ▸ rfl
    rw [← this] at hSym
    rw [hSym] at hns2
    cases hns2
  refine ⟨?_, hne, ?_, ?_⟩
  · unfold reset
    rw [hCommit]
    simp only [ebind_ok, epure]
    rw [hRead]
    simp only [ebind_ok, epure]
    unfold setRef
    rw [hres]
    rfl
  · rw [lookupA_setA_ne repo.refs branchPath "HEAD" commitHash hne]
    exact hHead
  · exact lookupA_setA_self repo.refs branchPath commitHash

set_option maxRecDepth 400000 in
/-- Witness for C9 on `ffRepo`: resetting to commit `a` rewrites
`refs/heads/master` and leaves the HEAD file as it was. -/
theorem C9_reset_symbolic_head_witness :
    reset noIgnore 20 ffRepo (mkOid 'a') = .ok
      { objects := ffRepo.objects,
        refs := setA ffRepo.refs "refs/heads/master" (mkOid 'a'),
        worktree := [] } ∧
    lookupA (setA ffRepo.refs "refs/heads/master" (mkOid 'a')) "HEAD" =
      some "ref: refs/heads/master\n" := by
  have h := C9_reset_symbolic_head noIgnore 20 ffRepo (mkOid 'a')
    ⟨mkOid 'a', mkOid '1', [], "t", "m"⟩ [] "ref: refs/heads/master\n"
    "refs/heads/master" ⟨mkOid 'a', false⟩ (by rfl) (by rfl) (by rfl)
    (by rfl) (by rfl)
  exact ⟨h.1, h.2.2.1⟩

/-! ### C2: fast-forward merge -/

/-- Writing a ref with `deref = false` writes at the named file itself
whenever that file exists. -/
theorem setRef_no_deref (refs : List (String × String)) (refName : String)
    (v : String) (content : String)
    (hl : lookupA refs refName = some content) :
    setRef refs refName ⟨v, false⟩ false = setA refs refName v := by
  unfold setRef
  simp only [getRefInternal]
  rw [hl]
  simp

/-- C2 (amended): in the fast-forward case (`merge_base = current HEAD
commit`), `merge` materialises the other branch's tree into the working
directory and writes the other branch's commit OID **directly into the HEAD
file** (`set_ref(HEAD, oid, deref=false)`): HEAD becomes detached at that
commit, the current branch ref is left unchanged (as is every other ref
file, so no MERGE_HEAD appears), and no commit object is created. -/
theorem C2_merge_fast_forward_amended
    (diff3 : Bytes → Bytes → Bytes → Bytes) (ignore : List String → Bool)
    (fuel : Nat) (repo : Repo) (branchName : String) (hr br : RefValue)
    (ch cb cbase : CommitObj) (mb : String) (wt : Worktree)
    (headContent : String)
    (hHR : getRef repo.refs "HEAD" true = .ok hr)
    (hBR : getRef repo.refs ("refs/heads/" ++ branchName) true = .ok br)
    (hCH : getCommit repo hr.value = .ok ch)
    (hCB : getCommit repo br.value = .ok cb)
    (hMB : getMergeBase fuel repo ch.oid cb.oid = .ok mb)
    (hBase : getCommit repo mb = .ok cbase)
    (hFF : cbase.oid = ch.oid)
    (hRead : readTree ignore fuel repo cb.tree = .ok wt)
    (hHeadFile : lookupA repo.refs "HEAD" = some headContent) :
    merge diff3 ignore fuel repo branchName = .ok
      { objects := repo.objects, refs := setA repo.refs "HEAD" br.value,
        worktree := wt } ∧
    lookupA (setA repo.refs "HEAD" br.value) "HEAD" = some br.value ∧
    ∀ n, n ≠ "HEAD" →
      lookupA (setA repo.refs "HEAD" br.value) n = lookupA repo.refs n := by
  refine ⟨?_, lookupA_setA_self _ _ _, fun n hn =>
    lookupA_setA_ne repo.refs "HEAD" n br.value (fun he => hn he.symm)⟩
  unfold merge
  rw [hHR]
  simp only [ebind_ok]
  rw [hBR]
  simp only [ebind_ok]
  rw [hCH]
  simp only [ebind_ok]
  rw [hCB]
  simp only [ebind_ok]
  rw [hMB]
  simp only [ebind_ok]
  rw [hBase]
  simp only [ebind_ok]
  rw [if_pos hFF]
  rw [hRead]
  simp only [ebind_ok, epure]
  rw [setRef_no_deref repo.refs "HEAD" br.value headContent hHeadFile]

set_option maxRecDepth 400000 in
/-- Witness for the amended C2 on `ffRepo`. -/
theorem C2_merge_fast_forward_amended_witness :
    merge dummyDiff3 noIgnore 20 ffRepo "feature" = .ok
      { objects := ffRepo.objects,
        refs := setA ffRepo.refs "HEAD" (mkOid 'b'),
        worktree := [("f.txt", FsNode.file (strBytes "hello"))] } ∧
    lookupA (setA ffRepo.refs "HEAD" (mkOid 'b')) "HEAD" = some (mkOid 'b') :=
  by
  have h := C2_merge_fast_forward_amended dummyDiff3 noIgnore 20 ffRepo
    "feature" ⟨mkOid 'a', false⟩ ⟨mkOid 'b', false⟩
    ⟨mkOid 'a', mkOid '1', [], "t", "m"⟩
    ⟨mkOid 'b', mkOid '2', [mkOid 'a'], "t", "m"⟩
    ⟨mkOid 'a', mkOid '1', [], "t", "m"⟩ (mkOid 'a')
    [("f.txt", FsNode.file (strBytes "hello"))] "ref: refs/heads/master\n"
    (by rfl) (by rfl) (by rfl) (by rfl) (by rfl) (by rfl) (by rfl) (by rfl)
    (by rfl)
  exact ⟨h.1, h.2.1⟩

set_option maxRecDepth 400000 in
/-- Counterexample to C2 as stated: after the fast-forward merge of `feature`
into `master` on `ffRepo`, the branch ref `refs/heads/master` still holds the
old commit `a` (it was not moved to `b`), and the HEAD file holds the bare
OID `b` (a direct, detached value, not a symbolic pointer to the branch). -/
theorem C2_merge_fast_forward_counterexample :
    merge dummyDiff3 noIgnore 20 ffRepo "feature" = .ok
      { objects := ffRepo.objects,
        refs := [("HEAD", mkOid 'b'), ("refs/heads/master", mkOid 'a'),
                 ("refs/heads/feature", mkOid 'b')],
        worktree := [("f.txt", FsNode.file (strBytes "hello"))] } ∧
    lookupA [("HEAD", mkOid 'b'), ("refs/heads/master", mkOid 'a'),
        ("refs/heads/feature", mkOid 'b')] "refs/heads/master" =
      some (mkOid 'a') ∧
    mkOid 'a' ≠ mkOid 'b' ∧
    strStartsWith (strTrim (mkOid 'b')) "ref:" = false :=
  ⟨by rfl, by rfl, by decide, by decide⟩

/-! ### C1: MERGE_HEAD across a non-fast-forward merge and the next commit -/

theorem setRef_no_deref_any (refs : List (String × String)) (refName v : String) :
    setRef refs refName ⟨v, false⟩ false = setA refs refName v := by
  unfold setRef
  simp only [getRefInternal]
  cases hl : lookupA refs refName <;> simp

theorem deleteRef_exists (refs : List (String × String)) (refName : String)
    (content : String) (hl : lookupA refs refName = some content) :
    deleteRef refs refName false = .ok (eraseA refs refName) := by
  unfold deleteRef
  simp only [getRefInternal]
  rw [hl]
  simp [bind, Except.bind, pure, Except.pure]

theorem getRef_absent (refs : List (String × String)) (refName : String)
    (hl : lookupA refs refName = none) :
    getRef refs refName true = .error ("Failed to read " ++ refName ++ " file") := by
  unfold getRef
  simp only [getRefInternal]
  rw [hl]
  rfl

theorem createTree_state (hashFn : Bytes → String)
    (ignore : List String → Bool) (fuel : Nat) (repo : Repo)
    (treeOid : String) (repo1 : Repo)
    (h : createTree hashFn ignore fuel repo = .ok (treeOid, repo1)) :
    repo1.refs = repo.refs ∧ repo1.worktree = repo.worktree := by
  unfold createTree at h
  rw [ebind_ok_iff] at h
  obtain ⟨p, _, hpure⟩ := h
  simp only [epure] at hpure
  have := Except.ok.inj hpure
  injection this with h1 h2
  rw [← h2]
  exact ⟨rfl, rfl⟩

theorem splitNl_ne_nil (l : List Char) : splitNl l ≠ [] := by
  cases l with
  | nil => simp [splitNl]
  | cons c rest =>
      unfold splitNl
      cases hs : splitNl rest with
      | nil => simp
      | cons h t =>
          by_cases hc : c = '\n' <;> simp [hc]

theorem splitNl_cons_nl (rest : List Char) :
    splitNl ('\n' :: rest) = [] :: splitNl rest := by
  simp only [splitNl]
  cases hs : splitNl rest with
  | nil => exact absurd hs (splitNl_ne_nil rest)
  | cons h t => simp

theorem splitNl_append_nl (a rest : List Char) (h : ∀ c ∈ a, c ≠ '\n') :
    splitNl (a ++ '\n' :: rest) = a :: splitNl rest := by
  induction a with
  | nil =>
      simp
      exact splitNl_cons_nl rest
  | cons c cs ih =>
      have hc : c ≠ '\n' := h c (by simp)
      rw [List.cons_append]
      simp only [splitNl]
      rw [ih (fun x hx => h x (by simp [hx]))]
      simp [hc]

theorem stripCr_id (l : List Char) (h : l.getLast? ≠ some '\x0d') :
    stripCr l = l := by
  unfold stripCr
  split
  · rename_i heq
    exact absurd heq h
  · rfl

theorem commitParseLines_inMsg (lines : List (List Char))
    (tp : Option (List Char)) (par : List String) (ts : Option (List Char))
    (msg : List Char) :
    ∃ msg2, commitParseLines lines (tp, par, ts, msg, true) =
      (tp, par, ts, msg2, true) := by
  induction lines generalizing msg with
  | nil => exact ⟨msg, rfl⟩
  | cons line rest ih =>
      simp only [commitParseLines, if_pos rfl]
      exact ih (msg ++ line ++ ['\n'])

theorem isPrefixOf_append_self (a b : List Char) :
    a.isPrefixOf (a ++ b) = true := by
  induction a with
  | nil => simp [List.isPrefixOf]
  | cons c cs ih => simp [List.isPrefixOf, ih]

theorem getLast_append_some (a b : List Char) (x : Char)
    (hb : b.getLast? = some x) : (a ++ b).getLast? = some x := by
  rw [List.getLast?_append, hb]
  rfl

theorem getLast_cons_some (c : Char) (b : List Char) (x : Char)
    (hb : b.getLast? = some x) : (c :: b).getLast? = some x := by
  rw [List.getLast?_cons, hb]
  rfl

/-- `stripCr` keeps a line of the form prefix-plus-suffix whose prefix does
not end in a carriage return and whose suffix contains none. -/
theorem stripCr_append_keep (p l : List Char)
    (hp : p.getLast? ≠ some '\x0d') (hl : ∀ c ∈ l, c ≠ '\x0d') :
    stripCr (p ++ l) = p ++ l := by
  apply stripCr_id
  intro hcontra
  rw [List.getLast?_append] at hcontra
  cases hnl : l.getLast? with
  | none =>
      rw [hnl] at hcontra
      simp only [Option.or] at hcontra
      exact hp hcontra
  | some x =>
      rw [hnl] at hcontra
      simp only [Option.or] at hcontra
      exact hl x (List.mem_of_mem_getLast? hnl) (Option.some.inj hcontra)

theorem rustLines_eq (l : List Char) (hne : l ≠ []) :
    rustLines l =
      (if l.getLast? = some '\n' then (splitNl l).dropLast
       else splitNl l).map stripCr := by
  unfold rustLines
  cases l with
  | nil => exact absurd rfl hne
  | cons c cs => rfl

/-- A 40-hex OID string is nonempty and free of newlines and carriage
returns. -/
theorem isHashB_chars (s : String) (h : isHashB s = true) :
    s.data ≠ [] ∧ ∀ c ∈ s.data, c ≠ '\n' ∧ c ≠ '\x0d' := by
  unfold isHashB at h
  rw [Bool.and_eq_true] at h
  have hlen := of_decide_eq_true h.1
  have hall := h.2
  rw [List.all_eq_true] at hall
  constructor
  · intro he
    rw [he] at hlen
    exact absurd hlen (by decide)
  · intro c hc
    have hx := hall c hc
    constructor
    · intro he
      rw [he] at hx
      exact absurd hx (by decide)
    · intro he
      rw [he] at hx
      exact absurd hx (by decide)

theorem no_nl_append (p l : List Char) (hp : ∀ c ∈ p, c ≠ '\n')
    (hl : ∀ c ∈ l, c ≠ '\n') : ∀ c ∈ p ++ l, c ≠ '\n' := by
  intro c hc
  rcases List.mem_append.mp hc with h | h
  · exact hp c h
  · exact hl c h

theorem commitParseLines_tree (Td : List Char) (rest : List (List Char))
    (tp : Option (List Char)) (par : List String) (ts : Option (List Char))
    (msg : List Char) :
    commitParseLines (("tree ".data ++ Td) :: rest) (tp, par, ts, msg, false) =
      commitParseLines rest (some Td, par, ts, msg, false) := by
  simp only [commitParseLines]
  rw [if_neg (by decide : ¬(false = true))]
  rw [if_neg (show ¬("tree ".data ++ Td = []) by simp)]
  rw [if_pos (isPrefixOf_append_self "tree ".data Td)]
  rw [show ("tree ".data ++ Td).drop 5 = Td from List.drop_left "tree ".data Td]

theorem commitParseLines_parent (Pd : List Char) (rest : List (List Char))
    (tp : Option (List Char)) (par : List String) (ts : Option (List Char))
    (msg : List Char) :
    commitParseLines (("parent ".data ++ Pd) :: rest)
      (tp, par, ts, msg, false) =
      commitParseLines rest (tp, par ++ [(⟨Pd⟩ : String)], ts, msg, false) := by
  simp only [commitParseLines]
  rw [if_neg (by decide : ¬(false = true))]
  rw [if_neg (show ¬("parent ".data ++ Pd = []) by simp)]
  rw [show "tree ".data.isPrefixOf ("parent ".data ++ Pd) = false from rfl]
  rw [if_neg (by decide : ¬(false = true))]
  rw [if_pos (isPrefixOf_append_self "parent ".data Pd)]
  rw [show ("parent ".data ++ Pd).drop 7 = Pd from
    List.drop_left "parent ".data Pd]

theorem commitParseLines_ts (nowd : List Char) (rest : List (List Char))
    (tp : Option (List Char)) (par : List String) (ts : Option (List Char))
    (msg : List Char) :
    commitParseLines (("timestamp ".data ++ nowd) :: rest)
      (tp, par, ts, msg, false) =
      commitParseLines rest (tp, par, some nowd, msg, false) := by
  simp only [commitParseLines]
  rw [if_neg (by decide : ¬(false = true))]
  rw [if_neg (show ¬("timestamp ".data ++ nowd = []) by simp)]
  rw [show "tree ".data.isPrefixOf ("timestamp ".data ++ nowd) = false from rfl]
  rw [if_neg (by decide : ¬(false = true))]
  rw [show "parent ".data.isPrefixOf ("timestamp ".data ++ nowd) = false from
    rfl]
  rw [if_neg (by decide : ¬(false = true))]
  rw [if_pos (isPrefixOf_append_self "timestamp ".data nowd)]
  rw [show ("timestamp ".data ++ nowd).drop 10 = nowd from
    List.drop_left "timestamp ".data nowd]

theorem commitParseLines_blank (rest : List (List Char))
    (tp : Option (List Char)) (par : List String) (ts : Option (List Char))
    (msg : List Char) :
    commitParseLines ([] :: rest) (tp, par, ts, msg, false) =
      commitParseLines rest (tp, par, ts, msg, true) := by
  simp only [commitParseLines]
  rw [if_neg (by decide : ¬(false = true))]
  rw [if_pos trivial]

/-- Parsing the serialised lines of a commit with one tree line, one parent
line, a timestamp line, a blank separator and a trailing-newline message
recovers the tree, the single parent and the timestamp. -/
theorem commitLines_parse (Td Pd nowd msgd : List Char)
    (hTc : ∀ c ∈ Td, c ≠ '\n' ∧ c ≠ '\x0d')
    (hPc : ∀ c ∈ Pd, c ≠ '\n' ∧ c ≠ '\x0d')
    (hNc : ∀ c ∈ nowd, c ≠ '\n' ∧ c ≠ '\x0d') :
    ∃ msg2, commitParseLines
      (rustLines (("tree ".data ++ Td) ++ '\n' ::
        (("parent ".data ++ Pd) ++ '\n' ::
          (("timestamp ".data ++ nowd) ++ '\n' :: '\n' :: (msgd ++ ['\n'])))))
      (none, [], none, [], false) =
      (some Td, [(⟨Pd⟩ : String)], some nowd, msg2, true) := by
  have hlast : ((("tree ".data ++ Td) ++ '\n' ::
      (("parent ".data ++ Pd) ++ '\n' ::
        (("timestamp ".data ++ nowd) ++ '\n' :: '\n' ::
          (msgd ++ ['\n'])))).getLast?) = some '\n' :=
    getLast_append_some _ _ _ (getLast_cons_some _ _ _
      (getLast_append_some _ _ _ (getLast_cons_some _ _ _
        (getLast_append_some _ _ _ (getLast_cons_some _ _ _
          (getLast_cons_some _ _ _ (List.getLast?_concat _)))))))
  rw [rustLines_eq _ (by simp)]
  rw [if_pos hlast]
  rw [splitNl_append_nl _ _ (no_nl_append _ _ (by decide)
    (fun c hc => (hTc c hc).1))]
  rw [splitNl_append_nl _ _ (no_nl_append _ _ (by decide)
    (fun c hc => (hPc c hc).1))]
  rw [splitNl_append_nl _ _ (no_nl_append _ _ (by decide)
    (fun c hc => (hNc c hc).1))]
  rw [splitNl_cons_nl]
  rw [show ("tree ".data ++ Td) :: ("parent ".data ++ Pd) ::
      ("timestamp ".data ++ nowd) :: ([] : List Char) ::
        splitNl (msgd ++ ['\n']) =
      [("tree ".data ++ Td), ("parent ".data ++ Pd),
        ("timestamp ".data ++ nowd), []] ++ splitNl (msgd ++ ['\n']) from rfl]
  rw [List.dropLast_append_of_ne_nil _ (splitNl_ne_nil (msgd ++ ['\n']))]
  rw [List.map_append]
  simp only [List.map_cons, List.map_nil]
  rw [stripCr_append_keep "tree ".data Td (by decide)
    (fun c hc => (hTc c hc).2)]
  rw [stripCr_append_keep "parent ".data Pd (by decide)
    (fun c hc => (hPc c hc).2)]
  rw [stripCr_append_keep "timestamp ".data nowd (by decide)
    (fun c hc => (hNc c hc).2)]
  rw [show stripCr [] = [] from rfl]
  show ∃ msg2, commitParseLines
      (("tree ".data ++ Td) :: ("parent ".data ++ Pd) ::
        ("timestamp ".data ++ nowd) :: [] ::
          List.map stripCr (splitNl (msgd ++ ['\n'])).dropLast)
      (none, [], none, [], false) =
    (some Td, [(⟨Pd⟩ : String)], some nowd, msg2, true)
  rw [commitParseLines_tree, commitParseLines_parent, commitParseLines_ts,
    commitParseLines_blank]
  simp only [List.nil_append]
  exact commitParseLines_inMsg _ (some Td) [(⟨Pd⟩ : String)] (some nowd) []

/-- `create_tree`'s recursive worker always returns an OID produced by the
hash function. -/
theorem createTreeAux_oid (hashFn : Bytes → String)
    (ignore : List String → Bool) (fuel : Nat) (pfx : List String)
    (listing : List (String × FsNode)) (objects : List (String × Bytes))
    (p : String × List (String × Bytes))
    (h : createTreeAux hashFn ignore fuel pfx listing objects = .ok p) :
    ∃ d, p.1 = hashFn d := by
  cases fuel with
  | zero =>
      simp only [createTreeAux] at h
      exact Except.noConfusion h
  | succ n =>
      simp only [createTreeAux] at h
      rw [ebind_ok_iff] at h
      obtain ⟨⟨entries, objs⟩, _, hp⟩ := h
      simp only [epure] at hp
      refine ⟨utf8Encode (objectHeaderChars ObjectType.tree
        ((insertionSort bytesLe entries).flatten).length) ++
        (insertionSort bytesLe entries).flatten, ?_⟩
      rw [← Except.ok.inj hp]
      rfl

/-- The OID returned by `create_tree` is a 40-hex hash whenever the hash
function produces such. -/
theorem createTree_oid_hash (hashFn : Bytes → String)
    (ignore : List String → Bool) (fuel : Nat) (repo : Repo)
    (treeOid : String) (repo1 : Repo)
    (hhash : ∀ b, isHashB (hashFn b) = true)
    (h : createTree hashFn ignore fuel repo = .ok (treeOid, repo1)) :
    isHashB treeOid = true := by
  unfold createTree at h
  rw [ebind_ok_iff] at h
  obtain ⟨⟨h0, objs⟩, haux, hpure⟩ := h
  simp only [epure] at hpure
  have hpair := Except.ok.inj hpure
  injection hpair with h1 _
  obtain ⟨d, hd⟩ := createTreeAux_oid hashFn ignore fuel [] repo.worktree
    repo.objects (h0, objs) haux
  rw [← h1]
  rw [show h0 = hashFn d from hd]
  exact hhash d

/-- When MERGE_HEAD is absent and HEAD resolves to a 40-hex value, a
successful `create_commit` stores a commit whose only parent is the resolved
HEAD value and whose tree is the OID returned by `create_tree`. -/
theorem createCommit_single_parent (hashFn : Bytes → String)
    (ignore : List String → Bool) (fuel : Nat) (now : String) (repo2 : Repo)
    (message : String) (treeOid : String) (repo1 : Repo) (hr2 : RefValue)
    (cHash : String) (repo3 : Repo)
    (hhash : ∀ b, isHashB (hashFn b) = true)
    (hmsg : strTrim message ≠ "")
    (hct : createTree hashFn ignore fuel repo2 = .ok (treeOid, repo1))
    (hHR : getRef repo1.refs "HEAD" true = .ok hr2)
    (hval : isHashB hr2.value = true)
    (hMH : lookupA repo1.refs "MERGE_HEAD" = none)
    (hNc : ∀ c ∈ now.data, c ≠ '\n' ∧ c ≠ '\x0d')
    (hcc : createCommit hashFn ignore fuel now repo2 message =
      .ok (cHash, repo3)) :
    ∃ c2, getCommit repo3 cHash = .ok c2 ∧ c2.parents = [hr2.value] ∧
      c2.tree = treeOid := by
  have hTOid : isHashB treeOid = true :=
    createTree_oid_hash hashFn ignore fuel repo2 treeOid repo1 hhash hct
  obtain ⟨_, hTc⟩ := isHashB_chars treeOid hTOid
  obtain ⟨_, hPc⟩ := isHashB_chars hr2.value hval
  have hE : createCommit hashFn ignore fuel now repo2 message = .ok
      (hashFn (commitObjOf treeOid hr2.value now message),
       { repo1 with
          objects := setA repo1.objects
            (hashFn (commitObjOf treeOid hr2.value now message))
            (commitObjOf treeOid hr2.value now message),
          refs := setRef repo1.refs "HEAD"
            ⟨hashFn (commitObjOf treeOid hr2.value now message), false⟩
            true }) := by
    unfold createCommit
    rw [if_neg hmsg]
    rw [hct]
    simp only [ebind_ok]
    rw [hHR, getRef_absent repo1.refs "MERGE_HEAD" hMH]
    simp only [hval, eq_self_iff_true, if_true, ebind_ok, epure, hashObjectO]
    rfl
  rw [hE] at hcc
  have hpair := Except.ok.inj hcc
  injection hpair with hA hB
  subst hA
  subst hB
  obtain ⟨msg2, hparse⟩ := commitLines_parse treeOid.data hr2.value.data
    now.data message.data hTc hPc hNc
  have hCC : commitCharsOf treeOid hr2.value now message =
      ("tree ".data ++ treeOid.data) ++ '\n' ::
        (("parent ".data ++ hr2.value.data) ++ '\n' ::
          (("timestamp ".data ++ now.data) ++ '\n' :: '\n' ::
            (message.data ++ ['\n']))) := by
    unfold commitCharsOf
    simp [String.data_append, List.append_assoc]
  refine ⟨⟨hashFn (commitObjOf treeOid hr2.value now message), treeOid,
    [hr2.value], ⟨now.data⟩, ⟨(msg2.reverse.dropWhile isWsChar).reverse⟩⟩,
    ?_, rfl, rfl⟩
  unfold getCommit
  rw [getOidHash_of_isHash _ _ (hhash _)]
  simp only [ebind_ok]
  rw [getObject_stored _ _
    (utf8Encode (commitCharsOf treeOid hr2.value now message))
    ObjectType.commit (hhash _) (lookupA_setA_self _ _ _)]
  simp only [ebind_ok]
  rw [hCC]
  simp only [utf8Decode_encode, hparse]

/-- C1 (amended): after a successful non-fast-forward merge the MERGE_HEAD
ref is **not** still set — `merge` itself deletes it just before returning —
and a subsequent successful `create_commit` therefore records only the
resolved HEAD value as parent, not both parents.  The merged worktree and the
frame condition on every other ref file hold as claimed. -/
theorem C1_merge_head_amended
    (diff3 : Bytes → Bytes → Bytes → Bytes) (ignore : List String → Bool)
    (fuel : Nat) (repo : Repo) (branchName : String) (hr br : RefValue)
    (ch cb cbase : CommitObj) (mb : String) (wt : Worktree)
    (hHR : getRef repo.refs "HEAD" true = .ok hr)
    (hBR : getRef repo.refs ("refs/heads/" ++ branchName) true = .ok br)
    (hCH : getCommit repo hr.value = .ok ch)
    (hCB : getCommit repo br.value = .ok cb)
    (hMB : getMergeBase fuel repo ch.oid cb.oid = .ok mb)
    (hBase : getCommit repo mb = .ok cbase)
    (hNFF : cbase.oid ≠ ch.oid)
    (hRead : readTreeMerged diff3 ignore fuel
      { repo with refs := setA repo.refs "MERGE_HEAD" br.value }
      ch.tree cb.tree (some cbase.tree) = .ok wt) :
    merge diff3 ignore fuel repo branchName = .ok
      { objects := repo.objects,
        refs := eraseA (setA repo.refs "MERGE_HEAD" br.value) "MERGE_HEAD",
        worktree := wt } ∧
    lookupA (eraseA (setA repo.refs "MERGE_HEAD" br.value) "MERGE_HEAD")
      "MERGE_HEAD" = none ∧
    (∀ n, n ≠ "MERGE_HEAD" →
      lookupA (eraseA (setA repo.refs "MERGE_HEAD" br.value) "MERGE_HEAD") n =
        lookupA repo.refs n) ∧
    (∀ (hashFn : Bytes → String) (fuel2 : Nat) (now message treeOid : String)
        (repo1 : Repo) (hr2 : RefValue) (cHash : String) (repo4 : Repo),
      (∀ b, isHashB (hashFn b) = true) →
      strTrim message ≠ "" →
      createTree hashFn ignore fuel2
        { objects := repo.objects,
          refs := eraseA (setA repo.refs "MERGE_HEAD" br.value) "MERGE_HEAD",
          worktree := wt } = .ok (treeOid, repo1) →
      getRef repo1.refs "HEAD" true = .ok hr2 →
      isHashB hr2.value = true →
      (∀ c ∈ now.data, c ≠ '\n' ∧ c ≠ '\x0d') →
      createCommit hashFn ignore fuel2 now
        { objects := repo.objects,
          refs := eraseA (setA repo.refs "MERGE_HEAD" br.value) "MERGE_HEAD",
          worktree := wt } message = .ok (cHash, repo4) →
      ∃ c2, getCommit repo4 cHash = .ok c2 ∧ c2.parents = [hr2.value] ∧
        c2.tree = treeOid) := by
  refine ⟨?_, lookupA_eraseA_self _ _, ?_, ?_⟩
  · unfold merge
    rw [hHR]
    simp only [ebind_ok]
    rw [hBR]
    simp only [ebind_ok]
    rw [hCH]
    simp only [ebind_ok]
    rw [hCB]
    simp only [ebind_ok]
    rw [hMB]
    simp only [ebind_ok]
    rw [hBase]
    simp only [ebind_ok]
    rw [if_neg hNFF]
    rw [setRef_no_deref_any repo.refs "MERGE_HEAD" br.value]
    rw [hRead]
    simp only [ebind_ok]
    rw [deleteRef_exists _ _ br.value (lookupA_setA_self _ _ _)]
    simp only [ebind_ok, epure]
  · intro n hn
    by_cases hs : n = "MERGE_HEAD"
    · exact absurd hs hn
    · rw [lookupA_eraseA_ne _ "MERGE_HEAD" n (fun he => hs he.symm)]
      exact lookupA_setA_ne repo.refs "MERGE_HEAD" n br.value
        (fun he => hs he.symm)
  · intro hashFn fuel2 now message treeOid repo1 hr2 cHash repo4
      hhash hmsg hct hHR2 hval2 hNc hcc
    have hMH : lookupA repo1.refs "MERGE_HEAD" = none := by
      rw [(createTree_state hashFn ignore fuel2 _ treeOid repo1 hct).1]
      exact lookupA_eraseA_self _ _
    exact createCommit_single_parent hashFn ignore fuel2 now _ message treeOid
      repo1 hr2 cHash repo4 hhash hmsg hct hHR2 hval2 hMH hNc hcc

set_option maxRecDepth 400000 in
/-- Witness for the amended C1 on `nffRepo`: merging `feature` (diverged from
`master`) succeeds, leaves no MERGE_HEAD ref behind, and the next commit on
the merged state has exactly the resolved HEAD value `a…a` as its single
parent. -/
theorem C1_merge_head_amended_witness :
    merge dummyDiff3 noIgnore 20 nffRepo "feature" = .ok
      { objects := nffRepo.objects,
        refs := eraseA (setA nffRepo.refs "MERGE_HEAD" (mkOid 'b'))
          "MERGE_HEAD",
        worktree := [] } ∧
    lookupA (eraseA (setA nffRepo.refs "MERGE_HEAD" (mkOid 'b')) "MERGE_HEAD")
      "MERGE_HEAD" = none ∧
    ∃ p, createCommit constHash noIgnore 20 "t"
        { objects := nffRepo.objects,
          refs := eraseA (setA nffRepo.refs "MERGE_HEAD" (mkOid 'b'))
            "MERGE_HEAD",
          worktree := [] } "m" = .ok p ∧
      ∃ c2, getCommit p.2 p.1 = .ok c2 ∧ c2.parents = [mkOid 'a'] := by
  have h := C1_merge_head_amended dummyDiff3 noIgnore 20 nffRepo "feature"
    ⟨mkOid 'a', false⟩ ⟨mkOid 'b', false⟩
    ⟨mkOid 'a', mkOid 'e', [mkOid '0'], "t", "m"⟩
    ⟨mkOid 'b', mkOid 'e', [mkOid '0'], "t", "m"⟩
    ⟨mkOid '0', mkOid 'e', [], "t", "m"⟩ (mkOid '0') []
    (by rfl) (by rfl) (by rfl) (by rfl) (by rfl) (by rfl) (by decide) (by rfl)
  refine ⟨h.1, h.2.1, ?_⟩
  refine ⟨((mkOid 'a'),
    { objects := setA
        (setA nffRepo.objects (mkOid 'a') (mkObjS "tree" []))
        (mkOid 'a') (commitObjOf (mkOid 'a') (mkOid 'a') "t" "m"),
      refs := setA
        (eraseA (setA nffRepo.refs "MERGE_HEAD" (mkOid 'b')) "MERGE_HEAD")
        "refs/heads/master" (mkOid 'a'),
      worktree := [] }), ?_, ?_⟩
  · rfl
  · obtain ⟨c2, hg, hpar, _⟩ := h.2.2.2 constHash 20 "t" "m" (mkOid 'a')
      { objects := setA nffRepo.objects (mkOid 'a') (mkObjS "tree" []),
        refs := eraseA (setA nffRepo.refs "MERGE_HEAD" (mkOid 'b'))
          "MERGE_HEAD",
        worktree := [] }
      ⟨mkOid 'a', false⟩ (mkOid 'a') _
      (fun _ => (by decide : isHashB (mkOid 'a') = true)) (by decide) (by rfl)
      (by rfl) (by decide) (by decide) (by rfl)
    exact ⟨c2, hg, hpar⟩

set_option maxRecDepth 400000 in
/-- Counterexample to C1 as stated: on `nffRepo` the merge of `feature` is a
non-fast-forward merge (the merge base `0…0` differs from HEAD's commit
`a…a`), it returns successfully, and afterwards no MERGE_HEAD ref exists —
the claim that "the MERGE_HEAD ref is still set to the other branch's commit
OID" after a successful merge is false, because `merge` deletes MERGE_HEAD
before returning. -/
theorem C1_merge_head_counterexample :
    ∃ r, merge dummyDiff3 noIgnore 20 nffRepo "feature" = .ok r ∧
      lookupA r.refs "MERGE_HEAD" = none ∧
      getMergeBase 20 nffRepo (mkOid 'a') (mkOid 'b') = .ok (mkOid '0') ∧
      mkOid '0' ≠ mkOid 'a' :=
  ⟨_, rfl, rfl, rfl, by decide⟩

/-! ### C6: `compare_trees` -/

theorem charsLe_total : ∀ a b : List Char, (charsLe a b || charsLe b a) = true := by
  intro a
  induction a with
  | nil => intro b; simp [charsLe]
  | cons x xs ih =>
      intro b
      cases b with
      | nil => simp [charsLe]
      | cons y ys =>
          simp only [charsLe]
          by_cases hxy : x.toNat < y.toNat
          · simp [hxy]
          · by_cases hyx : y.toNat < x.toNat
            · simp [hxy, hyx]
            · simp [hxy, hyx]
              simpa using ih ys

theorem charsLe_trans : ∀ a b c : List Char, charsLe a b = true →
    charsLe b c = true → charsLe a c = true := by
  intro a
  induction a with
  | nil => intro b c _ _; simp [charsLe]
  | cons x xs ih =>
      intro b c hab hbc
      cases b with
      | nil => simp [charsLe] at hab
      | cons y ys =>
          cases c with
          | nil => simp [charsLe] at hbc
          | cons z zs =>
              simp only [charsLe] at hab hbc ⊢
              by_cases hyz : y.toNat < z.toNat
              · rw [if_pos hyz] at hbc
                by_cases hxy : x.toNat < y.toNat
                · rw [if_pos (show x.toNat < z.toNat by omega)]
                · rw [if_neg hxy] at hab
                  by_cases hyx : y.toNat < x.toNat
                  · rw [if_pos hyx] at hab
                    cases hab
                  · rw [if_pos (show x.toNat < z.toNat by omega)]
              · rw [if_neg hyz] at hbc
                by_cases hzy : z.toNat < y.toNat
                · rw [if_pos hzy] at hbc
                  cases hbc
                · rw [if_neg hzy] at hbc
                  by_cases hxy : x.toNat < y.toNat
                  · rw [if_pos (show x.toNat < z.toNat by omega)]
                  · rw [if_neg hxy] at hab
                    by_cases hyx : y.toNat < x.toNat
                    · rw [if_pos hyx] at hab
                      cases hab
                    · rw [if_neg hyx] at hab
                      rw [if_neg (show ¬ x.toNat < z.toNat by omega),
                        if_neg (show ¬ z.toNat < x.toNat by omega)]
                      exact ih ys zs hab hbc

theorem strLe_total (a b : String) : (strLe a b || strLe b a) = true :=
  charsLe_total a.data b.data

theorem strLe_trans (a b c : String) (hab : strLe a b = true)
    (hbc : strLe b c = true) : strLe a c = true :=
  charsLe_trans a.data b.data c.data hab hbc

theorem lookupA_mem {β : Type} (l : List (String × β)) (k : String) (v : β)
    (h : lookupA l k = some v) : (k, v) ∈ l := by
  induction l with
  | nil => exact Option.noConfusion h
  | cons e rest ih =>
      obtain ⟨k', v'⟩ := e
      unfold lookupA at h
      by_cases hk : k' = k
      · rw [if_pos hk] at h
        have hv := Option.some.inj h
        rw [← hk, ← hv]
        exact List.mem_cons_self _ _
      · rw [if_neg hk] at h
        exact List.mem_cons_of_mem _ (ih h)

theorem mem_setA {β : Type} (l : List (String × β)) (k : String) (v : β)
    (r : String × β) (h : r ∈ setA l k v) : r ∈ l ∨ r = (k, v) := by
  induction l with
  | nil =>
      right
      simpa [setA] using h
  | cons e rest ih =>
      obtain ⟨k', v'⟩ := e
      unfold setA at h
      by_cases hk : k' = k
      · rw [if_pos hk] at h
        rcases List.mem_cons.mp h with he | hr
        · right
          rw [he, hk]
        · left
          exact List.mem_cons_of_mem _ hr
      · rw [if_neg hk] at h
        rcases List.mem_cons.mp h with he | hr
        · left
          rw [he]
          exact List.mem_cons_self _ _
        · rcases ih hr with h1 | h2
          · exact Or.inl (List.mem_cons_of_mem _ h1)
          · exact Or.inr h2

theorem setA_keys_mem {β : Type} (l : List (String × β)) (k : String) (v : β)
    (x : String) (h : x ∈ (setA l k v).map (fun r => r.1)) :
    x = k ∨ x ∈ l.map (fun r => r.1) := by
  rw [List.mem_map] at h
  obtain ⟨r, hr, hx⟩ := h
  rcases mem_setA l k v r hr with h1 | h2
  · right
    rw [← hx]
    exact List.mem_map_of_mem _ h1
  · left
    rw [← hx, h2]

theorem setA_keys_nodup {β : Type} (l : List (String × β)) (k : String)
    (v : β) (h : (l.map (fun r => r.1)).Nodup) :
    ((setA l k v).map (fun r => r.1)).Nodup := by
  induction l with
  | nil => simp [setA]
  | cons e rest ih =>
      obtain ⟨k', v'⟩ := e
      rw [List.map_cons, List.nodup_cons] at h
      unfold setA
      by_cases hk : k' = k
      · rw [if_pos hk]
        rw [List.map_cons, List.nodup_cons]
        exact h
      · rw [if_neg hk]
        rw [List.map_cons, List.nodup_cons]
        constructor
        · intro hmem
          rcases setA_keys_mem rest k v k' hmem with h1 | h2
          · exact hk h1
          · exact h.1 h2
        · exact ih h.2

/-- `ctRecordEntry` preserves the row invariant. -/
theorem ctRecordEntry_inv (numTrees i : Nat) (path oid : String)
    (otype : ObjectType)
    (entries e' : List (String × ObjectType × List (Option String)))
    (h : ctRecordEntry numTrees i path oid otype entries = .ok e')
    (hInv : ctInv numTrees entries) : ctInv numTrees e' := by
  unfold ctRecordEntry at h
  cases hl : lookupA entries path with
  | some tv =>
      obtain ⟨t0, oids0⟩ := tv
      simp only [hl] at h
      by_cases hi : i < oids0.length
      · rw [if_pos hi] at h
        have he := Except.ok.inj h
        rw [← he]
        have hlen : oids0.length = numTrees :=
          hInv.1 (path, t0, oids0) (lookupA_mem entries path (t0, oids0) hl)
        constructor
        · intro r hr
          rcases mem_setA entries path _ r hr with h1 | h2
          · exact hInv.1 r h1
          · rw [h2]
            simpa using hlen
        · exact setA_keys_nodup entries path _ hInv.2
      · rw [if_neg hi] at h
        exact Except.noConfusion h
  | none =>
      simp only [hl] at h
      by_cases hi : i < (List.replicate numTrees (none : Option String)).length
      · rw [if_pos hi] at h
        have he := Except.ok.inj h
        rw [← he]
        constructor
        · intro r hr
          rcases mem_setA entries path _ r hr with h1 | h2
          · exact hInv.1 r h1
          · rw [h2]
            simp
        · exact setA_keys_nodup entries path _ hInv.2
      · rw [if_neg hi] at h
        exact Except.noConfusion h

/-- `ctRecordEntry` records kind `tree` whenever the incoming entry is a tree
or the existing row already records a tree (the "prefer Tree" rule). -/
theorem ctRecordEntry_tree_kind (numTrees i : Nat) (path oid : String)
    (otype : ObjectType)
    (entries e' : List (String × ObjectType × List (Option String)))
    (h : ctRecordEntry numTrees i path oid otype entries = .ok e')
    (hsrc : otype = ObjectType.tree ∨
      ∃ v, lookupA entries path = some (ObjectType.tree, v)) :
    ∃ sl, lookupA e' path = some (ObjectType.tree, sl) := by
  unfold ctRecordEntry at h
  cases hl : lookupA entries path with
  | none =>
      simp only [hl] at h
      cases hsrc with
      | inl ht =>
          subst ht
          by_cases hi : i <
              (List.replicate numTrees (none : Option String)).length
          · rw [if_pos hi] at h
            have he := Except.ok.inj h
            refine ⟨(List.replicate numTrees (none : Option String)).set i
              (some oid), ?_⟩
            rw [← he, lookupA_setA_self]
            rfl
          · rw [if_neg hi] at h
            exact Except.noConfusion h
      | inr hex =>
          obtain ⟨v, hv⟩ := hex
          rw [hl] at hv
          exact Option.noConfusion hv
  | some tv =>
      obtain ⟨t0, oids0⟩ := tv
      simp only [hl] at h
      by_cases hi : i < oids0.length
      · rw [if_pos hi] at h
        have he := Except.ok.inj h
        refine ⟨oids0.set i (some oid), ?_⟩
        rw [← he, lookupA_setA_self]
        cases hsrc with
        | inl ht =>
            subst ht
            by_cases h0 : t0 = ObjectType.tree
            · subst h0
              rfl
            · rw [if_pos ⟨h0, rfl⟩]
        | inr hex =>
            obtain ⟨v, hv⟩ := hex
            rw [hl] at hv
            have hp := Option.some.inj hv
            injection hp with h1 _
            subst h1
            rw [if_neg (fun hc => hc.1 hc.2.symm)]
      · rw [if_neg hi] at h
        exact Except.noConfusion h

/-- `ctStep` preserves the row invariant. -/
theorem ctStep_inv (numTrees i : Nat) (pfx : String)
    (td : String × String × String × ObjectType)
    (st st' : List (String × ObjectType × List (Option String)) ×
      List (List String) × List (Nat × String × String))
    (h : ctStep numTrees i pfx td st = .ok st')
    (hInv : ctInv numTrees st.1) : ctInv numTrees st'.1 := by
  obtain ⟨entries, visited, queue⟩ := st
  obtain ⟨mode, nm, oid, otype⟩ := td
  simp only [ctStep] at h
  rw [ebind_ok_iff] at h
  obtain ⟨e', hrec, hrest⟩ := h
  have h1 : st'.1 = e' := by
    by_cases hc : otype = ObjectType.tree ∧
        ¬ (visited.getD i []).contains oid = true
    · rw [if_pos hc] at hrest
      rw [epure] at hrest
      rw [← Except.ok.inj hrest]
    · rw [if_neg hc] at hrest
      rw [epure] at hrest
      rw [← Except.ok.inj hrest]
  rw [h1]
  exact ctRecordEntry_inv numTrees i (ctPath pfx nm) oid otype entries e'
    hrec hInv

/-- The per-tree entry fold of the `compare_trees` loop preserves the row
invariant. -/
theorem foldlM_ctStep_inv (numTrees i : Nat) (pfx : String) :
    ∀ (tds : List (String × String × String × ObjectType))
      (st st' : List (String × ObjectType × List (Option String)) ×
        List (List String) × List (Nat × String × String)),
      tds.foldlM (fun st td => ctStep numTrees i pfx td st) st = .ok st' →
      ctInv numTrees st.1 → ctInv numTrees st'.1 := by
  intro tds
  induction tds with
  | nil =>
      intro st st' h hInv
      simp only [List.foldlM, epure, Except.ok.injEq] at h
      rw [← h]
      exact hInv
  | cons td rest ih =>
      intro st st' h hInv
      simp only [List.foldlM] at h
      rw [ebind_ok_iff] at h
      obtain ⟨st1, hstep, hrest⟩ := h
      exact ih st1 st' hrest (ctStep_inv numTrees i pfx td st st1 hstep hInv)

/-- The `compare_trees` worklist loop preserves the row invariant. -/
theorem compareTreesLoop_inv (repo : Repo) (numTrees : Nat) :
    ∀ (fuel : Nat) (entries : List (String × ObjectType × List (Option String)))
      (visited : List (List String)) (queue : List (Nat × String × String))
      (res : List (String × ObjectType × List (Option String))),
      compareTreesLoop repo numTrees fuel entries visited queue = .ok res →
      ctInv numTrees entries → ctInv numTrees res := by
  intro fuel
  induction fuel with
  | zero =>
      intro entries visited queue res h _
      simp only [compareTreesLoop] at h
      exact Except.noConfusion h
  | succ n ih =>
      intro entries visited queue res h hInv
      cases queue with
      | nil =>
          simp only [compareTreesLoop, Except.ok.injEq] at h
          rw [← h]
          exact hInv
      | cons q rest =>
          obtain ⟨i, oid, pfx⟩ := q
          simp only [compareTreesLoop] at h
          cases hg : getTreeData repo oid with
          | error e =>
              simp only [hg] at h
              exact ih entries visited rest res h hInv
          | ok td =>
              simp only [hg] at h
              rw [ebind_ok_iff] at h
              obtain ⟨⟨e', v', q'⟩, hfold, hrec⟩ := h
              exact ih e' v' q' res hrec
                (foldlM_ctStep_inv numTrees i pfx td _ _ hfold hInv)

/-- C6 (amended): `compare_trees` returns rows with pairwise-distinct paths,
sorted by path, each row carrying exactly one optional OID slot per input
tree, and its per-entry recording step prefers kind Tree; but it does **not**
return a row for every distinct path logically present in an input: a subtree
reached along a second path whose OID was already visited for that input is
skipped, so paths under aliased subtrees are missing. -/
theorem C6_compare_trees_amended (fuel : Nat) (repo : Repo)
    (trees : List String) (rows : List CTRow)
    (h : compareTrees fuel repo trees = .ok rows) :
    List.Pairwise (fun a b : CTRow => strLe a.1 b.1 = true) rows ∧
    (rows.map (fun r => r.1)).Nodup ∧
    (∀ r ∈ rows, r.2.2.length = trees.length) ∧
    (∀ (numTrees i : Nat) (path oid : String) (otype : ObjectType)
        (entries e' : List (String × ObjectType × List (Option String))),
      ctRecordEntry numTrees i path oid otype entries = .ok e' →
      (otype = ObjectType.tree ∨
        ∃ v, lookupA entries path = some (ObjectType.tree, v)) →
      ∃ sl, lookupA e' path = some (ObjectType.tree, sl)) := by
  unfold compareTrees at h
  simp only [ctInit] at h
  rw [ebind_ok_iff] at h
  obtain ⟨entries, hloop, hpure⟩ := h
  simp only [epure, Except.ok.injEq] at hpure
  have hInv : ctInv trees.length entries :=
    compareTreesLoop_inv repo trees.length fuel [] _ _ entries hloop
      ⟨fun r hr => absurd hr (List.not_mem_nil r), List.nodup_nil⟩
  refine ⟨?_, ?_, ?_, ?_⟩
  · rw [← hpure]
    exact insertionSort_pairwise _ (fun a b => strLe_total a.1 b.1)
      (fun a b c => strLe_trans a.1 b.1 c.1) entries
  · rw [← hpure]
    exact ((insertionSort_perm (fun a b : CTRow => strLe a.1 b.1)
      entries).map (fun r => r.1)).nodup_iff.mpr hInv.2
  · intro r hr
    rw [← hpure] at hr
    exact hInv.1 r
      ((insertionSort_perm (fun a b : CTRow => strLe a.1 b.1)
        entries).mem_iff.mp hr)
  · intro numTrees i path oid otype entries' e' hh hsrc
    exact ctRecordEntry_tree_kind numTrees i path oid otype entries' e'
      hh hsrc

set_option maxRecDepth 400000 in
/-- Witness for the amended C6 on `aliasRepo`: the three returned rows have
distinct sorted paths and one OID slot each. -/
theorem C6_compare_trees_amended_witness :
    List.Pairwise (fun a b : CTRow => strLe a.1 b.1 = true)
      [("a", ObjectType.tree, [some (mkOid '2')]),
       ("a/f", ObjectType.blob, [some (mkOid '3')]),
       ("b", ObjectType.tree, [some (mkOid '2')])] ∧
    ([("a", ObjectType.tree, [some (mkOid '2')]),
      ("a/f", ObjectType.blob, [some (mkOid '3')]),
      ("b", ObjectType.tree, [some (mkOid '2')])].map
        (fun r : CTRow => r.1)).Nodup ∧
    ∀ r ∈ ([("a", ObjectType.tree, [some (mkOid '2')]),
      ("a/f", ObjectType.blob, [some (mkOid '3')]),
      ("b", ObjectType.tree, [some (mkOid '2')])] : List CTRow),
      r.2.2.length = 1 := by
  have h := C6_compare_trees_amended 20 aliasRepo [mkOid '1']
    [("a", ObjectType.tree, [some (mkOid '2')]),
     ("a/f", ObjectType.blob, [some (mkOid '3')]),
     ("b", ObjectType.tree, [some (mkOid '2')])] (by rfl)
  exact ⟨h.1, h.2.1, h.2.2.1⟩

set_option maxRecDepth 400000 in
/-- Counterexample to C6 as stated: on `aliasRepo` the root tree lists two
directories `a` and `b` with the same subtree OID, so the path `b/f` is
present in the input (the spec-side path enumeration lists it), yet
`compare_trees` returns no row for it — the per-input visited-OID set
suppresses the second traversal of the shared subtree. -/
theorem C6_compare_trees_counterexample :
    compareTrees 20 aliasRepo [mkOid '1'] = .ok
      [("a", ObjectType.tree, [some (mkOid '2')]),
       ("a/f", ObjectType.blob, [some (mkOid '3')]),
       ("b", ObjectType.tree, [some (mkOid '2')])] ∧
    specTreePaths aliasRepo 20 (mkOid '1') "" = ["a", "a/f", "b", "b/f"] ∧
    ([("a", ObjectType.tree, [some (mkOid '2')]),
      ("a/f", ObjectType.blob, [some (mkOid '3')]),
      ("b", ObjectType.tree, [some (mkOid '2')])].map
        (fun r : CTRow => r.1)) = ["a", "a/f", "b"] ∧
    "b/f" ∉ ["a", "a/f", "b"] :=
  ⟨by rfl, by rfl, by rfl, by decide⟩

end BGit
